import Mathlib

/-!
Shallow embedding of the numeric engine of the Pumping_system repository
(file src/fluido.py, constants from src/constantes.py), together with proofs
about the claims of its specification.

Modelling conventions:
* Python floats are modelled as exact rationals (ℚ).
* The library transcendentals math.log10 and math.sqrt are not part of the
  repository; every definition that needs them takes them as explicit
  function parameters (log10 sqrtQ : ℚ → ℚ).  Theorems that depend on a
  property of the real square root (such as nonnegativity) take that
  property as a hypothesis.
* numpy.interp is embedded by npInterp below, following the numpy
  implementation: clamping outside the sample range, and at a query equal
  to a duplicated sample position returning the value of the last sample
  at that position.
* Python sorted on (position, head) tuples compares lexicographically.
  Because that comparison is a total, transitive and antisymmetric order,
  every sorting algorithm (stable or not) returns the same list, so it is
  embedded by List.insertionSort with the lexicographic order pairLe.
  The pump sort sorted(bombas, key=lambda b: ...) is a stable sort by the
  position only; List.insertionSort is stable, so it embeds that one with
  the key order keyLe.
* Terrain data enters as two lists (distances, elevations), already parsed;
  reading the CSV is outside the numeric engine.
-/

set_option allowUnsafeReducibility true in
attribute [semireducible] Rat.add Rat.sub Rat.mul Rat.inv Rat.div

namespace Fluido

/-- Gravitational acceleration, G = 9.81 in src/constantes.py. -/
def G : ℚ := 981 / 100

/-- Helper for npInterp: the carried pair (x0, y0) is the last sample with
position ≤ t; walk the remaining samples. -/
def interpFrom (t : ℚ) : ℚ → ℚ → List ℚ → List ℚ → ℚ
  | x0, y0, x1 :: xs, y1 :: ys =>
      if t < x1 then y0 + (y1 - y0) * (t - x0) / (x1 - x0)
      else interpFrom t x1 y1 xs ys
  | _, y0, _, _ => y0

/-- numpy.interp t xs ys for sample positions xs and values ys. -/
def npInterp (t : ℚ) (xs ys : List ℚ) : ℚ :=
  match xs, ys with
  | x0 :: xs1, y0 :: ys1 => if t < x0 then y0 else interpFrom t x0 y0 xs1 ys1
  | _, _ => 0

/-- Lexicographic comparison of (position, head) pairs: exactly the order in
which Python compares 2-tuples inside sorted(zip(x_final, h_final)). -/
def pairLe (a b : ℚ × ℚ) : Prop := a.1 < b.1 ∨ (a.1 = b.1 ∧ a.2 ≤ b.2)

instance : DecidableRel pairLe := fun a b => by unfold pairLe; infer_instance

instance : IsTotal (ℚ × ℚ) pairLe := by
  constructor
  intro a b
  rcases lt_trichotomy a.1 b.1 with h | h | h
  · exact Or.inl (Or.inl h)
  · rcases le_total a.2 b.2 with h2 | h2
    · exact Or.inl (Or.inr ⟨h, h2⟩)
    · exact Or.inr (Or.inr ⟨h.symm, h2⟩)
  · exact Or.inr (Or.inl h)

instance : IsTrans (ℚ × ℚ) pairLe := by
  constructor
  rintro a b c (h | ⟨h, h2⟩) (g | ⟨g, g2⟩)
  · exact Or.inl (h.trans g)
  · exact Or.inl (g ▸ h)
  · exact Or.inl (h ▸ g)
  · exact Or.inr ⟨h.trans g, h2.trans g2⟩

instance : IsAntisymm (ℚ × ℚ) pairLe := by
  constructor
  rintro ⟨a1, a2⟩ ⟨b1, b2⟩ (h | ⟨h, h2⟩) (g | ⟨g, g2⟩)
  · exact absurd g (lt_asymm h)
  · exact absurd h (not_lt.mpr (le_of_eq g))
  · exact absurd g (not_lt.mpr (le_of_eq h))
  · simp only [Prod.mk.injEq]
    exact ⟨h, le_antisymm h2 g2⟩

/-- Key comparison by position only: the order used by
sorted(bombas, key=lambda b: b position). -/
def keyLe (a b : ℚ × ℚ) : Prop := a.1 ≤ b.1

instance : DecidableRel keyLe := fun a b => by unfold keyLe; infer_instance

/-- The re-sorting step x_final, h_final = zip(*sorted(zip(x_final, h_final))). -/
def sortStep (xs hs : List ℚ) : List ℚ × List ℚ :=
  let s := List.insertionSort pairLe (xs.zip hs)
  (s.map Prod.fst, s.map Prod.snd)

/-- Python list.index: index of the first occurrence. -/
def pyIndex (a : ℚ) : List ℚ → ℕ
  | [] => 0
  | b :: l => if b = a then 0 else pyIndex a l + 1

/-- Python list.insert(i, v): insert before index i, appending when i is past
the end. -/
def pyInsert : ℕ → ℚ → List ℚ → List ℚ
  | 0, a, l => a :: l
  | _ + 1, a, [] => [a]
  | n + 1, a, b :: l => b :: pyInsert n a l

/-- Add d to every element from index k on: models
h_final[k] += d together with the loop for i in range(k+1, len): += d. -/
def bumpFrom : ℕ → ℚ → List ℚ → List ℚ
  | _, _, [] => []
  | 0, d, h :: l => (h + d) :: bumpFrom 0 d l
  | k + 1, d, h :: l => h :: bumpFrom k d l

/-- The 1e-6 offset used for the pre-jump interpolation query x_b - 1e-6. -/
def epsShift : ℚ := 1 / 1000000

/-- agregar_bomba (src/fluido.py lines 206-241): insert a pump discontinuity,
then shift everything so the last head is unchanged. -/
def agregar_bomba (x_final h_final : List ℚ) (x_b head : ℚ) : List ℚ × List ℚ :=
  let h_final_original := h_final.getLastD 0
  let xh :=
    if x_b ∈ x_final then (x_final, h_final)
    else (x_final ++ [x_b], h_final ++ [npInterp x_b x_final h_final])
  let s := sortStep xh.1 xh.2
  let idx := pyIndex x_b s.1
  let h_antes := if 0 < idx then npInterp (x_b - epsShift) s.1 s.2 else s.2.headI
  let xs3 := pyInsert idx x_b s.1
  let hs3 := pyInsert idx h_antes s.2
  let hs4 := bumpFrom (idx + 1) head hs3
  let delta := h_final_original - hs4.getLastD 0
  (xs3, hs4.map (fun h => h + delta))

/-- The pump-insertion block inlined in generar_perfil_presion
(src/fluido.py lines 165-198): identical to agregar_bomba except that it has
no per-insertion renormalization step. -/
def agregar_bomba_sin_ajuste (x_final h_final : List ℚ) (x_b head : ℚ) : List ℚ × List ℚ :=
  let xh :=
    if x_b ∈ x_final then (x_final, h_final)
    else (x_final ++ [x_b], h_final ++ [npInterp x_b x_final h_final])
  let s := sortStep xh.1 xh.2
  let idx := pyIndex x_b s.1
  let h_antes := if 0 < idx then npInterp (x_b - epsShift) s.1 s.2 else s.2.headI
  let xs3 := pyInsert idx x_b s.1
  let hs3 := pyInsert idx h_antes s.2
  let hs4 := bumpFrom (idx + 1) head hs3
  (xs3, hs4)

/-- One Colebrook fixed-point update (the right-hand side recomputation). -/
def colebrookStep (log10 sqrtQ : ℚ → ℚ) (Re D epsilon f : ℚ) : ℚ :=
  ((-2) * log10 (epsilon / (37 / 10 * D) + (251 / 100) / (Re * sqrtQ f))) ^ (-2 : ℤ)

/-- The iteration loop of colebrook (src/fluido.py lines 55-62): recompute,
stop when successive iterates differ by less than 1e-6, at most the given
number of iterations, return the last computed value. -/
def colebrookGo (step : ℚ → ℚ) : ℕ → ℚ → ℚ
  | 0, f => f
  | n + 1, f =>
      let f2 := step f
      if |f2 - f| < 1 / 1000000 then f2 else colebrookGo step n f2

/-- colebrook(Re, D, epsilon) with tol=1e-6, max_iter=100, start f=0.02. -/
def colebrook (log10 sqrtQ : ℚ → ℚ) (Re D epsilon : ℚ) : ℚ :=
  colebrookGo (colebrookStep log10 sqrtQ Re D epsilon) 100 (1 / 50)

/-- The friction factor selection f = 64/Re if Re < 2000 else colebrook(...),
as written at src/fluido.py lines 136, 277 and 361. -/
def friccion (log10 sqrtQ : ℚ → ℚ) (Re D epsilon : ℚ) : ℚ :=
  if Re < 2000 then 64 / Re else colebrook log10 sqrtQ Re D epsilon

/-- The reverse accumulation loop (src/fluido.py lines 144-151): starting at
the final point, add the Darcy-Weisbach loss of each traversed segment. -/
def acumula_reversa (sqrtQ : ℚ → ℚ) (f D v : ℚ) : ℚ → ℚ → ℚ → List (ℚ × ℚ) → List ℚ
  | _, _, h, [] => [h]
  | px, pz, h, (cx, cz) :: rest =>
      h :: acumula_reversa sqrtQ f D v cx cz
        (h + f * (sqrtQ ((px - cx) ^ 2 + (pz - cz) ^ 2) / D) * v ^ 2 / (2 * G)) rest

/-- generar_perfil_presion (src/fluido.py lines 115-204): backward profile
from a known final head, then overlay pumps with the inline insertion, then
one global shift restoring the final boundary. -/
def generar_perfil_presion (log10 sqrtQ : ℚ → ℚ) (x z : List ℚ)
    (densidad viscosidad velocidad diametro rugosidad presion_final_m : ℚ)
    (bombas : List (ℚ × ℚ)) : List ℚ × List ℚ :=
  let Re := densidad * velocidad * diametro / viscosidad
  let f := friccion log10 sqrtQ Re diametro rugosidad
  let x_rev := x.reverse
  let z_rev := z.reverse
  let h_rev := acumula_reversa sqrtQ f diametro velocidad x_rev.headI z_rev.headI
      (presion_final_m + z_rev.headI) (x_rev.tail.zip z_rev.tail)
  let h_list := h_rev.reverse
  let bombas_ord := List.insertionSort keyLe bombas
  let xh := bombas_ord.foldl
      (fun acc b => agregar_bomba_sin_ajuste acc.1 acc.2 b.1 b.2) (x, h_list)
  let delta := (presion_final_m + z.getLastD 0) - xh.2.getLastD 0
  (xh.1, xh.2.map (fun h => h + delta))

/-- A pump record: a position and an optional delivered head
(none encodes the unresolved pump of the boundary-constrained mode). -/
structure Bomba where
  x : ℚ
  head : Option ℚ
deriving DecidableEq

/-- generar_perfil_presion_con_bomba_desconocida (src/fluido.py lines
243-328): backward profile, insert the pumps with known head via
agregar_bomba in the given order, then compute the head of the first unknown
pump from the discrepancy at the first sample and insert it. -/
def generar_perfil_presion_con_bomba_desconocida (log10 sqrtQ : ℚ → ℚ) (x z : List ℚ)
    (densidad viscosidad velocidad diametro rugosidad : ℚ)
    (presion_inicial_m presion_final_m : ℚ) (bombas : List Bomba) :
    List ℚ × List ℚ × List (ℚ × ℚ) :=
  let Re := densidad * velocidad * diametro / viscosidad
  let f := friccion log10 sqrtQ Re diametro rugosidad
  let x_rev := x.reverse
  let z_rev := z.reverse
  let h_rev := acumula_reversa sqrtQ f diametro velocidad x_rev.headI z_rev.headI
      (presion_final_m + z_rev.headI) (x_rev.tail.zip z_rev.tail)
  let h_list := h_rev.reverse
  let conocidas := bombas.filter (fun b => b.head.isSome)
  let xh := conocidas.foldl
      (fun acc b => agregar_bomba acc.1 acc.2 b.x (b.head.getD 0)) (x, h_list)
  let bombas_result := conocidas.map (fun b => (b.x, b.head.getD 0))
  let h_deseada_inicial := presion_inicial_m + z.headI
  let delta_inicial := xh.2.headI - h_deseada_inicial
  match bombas.filter (fun b => b.head.isNone) with
  | [] => (xh.1, xh.2, bombas_result)
  | b :: _ =>
      let r := agregar_bomba xh.1 xh.2 b.x delta_inicial
      (r.1, r.2, bombas_result ++ [(b.x, delta_inicial)])

/-- numpy.linspace a b n: n evenly spaced samples from a to b inclusive. -/
def linspace (a b : ℚ) (n : ℕ) : List ℚ :=
  (List.range n).map (fun j : ℕ => a + (b - a) * (j : ℚ) / ((n : ℚ) - 1))

/-- The segments after the first in interpolar_perfil: each drops its first
sample (the shared endpoint already emitted by the previous segment). -/
def interpola_cola (k : ℕ) : ℚ → ℚ → List (ℚ × ℚ) → List ℚ × List ℚ
  | _, _, [] => ([], [])
  | a, c, (b, d) :: rest =>
      let t := interpola_cola k b d rest
      ((linspace a b (k + 2)).tail ++ t.1, (linspace c d (k + 2)).tail ++ t.2)

/-- interpolar_perfil (src/fluido.py lines 7-49): densify the terrain with
num_puntos_extra linearly interpolated points per segment. -/
def interpolar_perfil (x z : List ℚ) (num_puntos_extra : ℕ) : List ℚ × List ℚ :=
  match x, z with
  | x0 :: x1 :: xr, z0 :: z1 :: zr =>
      let t := interpola_cola num_puntos_extra x1 z1 (xr.zip zr)
      (linspace x0 x1 (num_puntos_extra + 2) ++ t.1,
       linspace z0 z1 (num_puntos_extra + 2) ++ t.2)
  | _, _ => ([], [])

/-- The traversal loop of generar_perfil_con_bombas_automaticas
(src/fluido.py lines 381-410), returning the samples and pumps appended
after the two initial samples. -/
def recorre (sqrtQ : ℚ → ℚ) (f D v altura_seguridad head_bomba : ℚ) :
    ℚ → ℚ → ℚ → List (ℚ × ℚ) → List ℚ × List ℚ × List (ℚ × ℚ)
  | _, _, _, [] => ([], [], [])
  | px, pz, h, (cx, cz) :: rest =>
      let hf := f * (sqrtQ ((cx - px) ^ 2 + (cz - pz) ^ 2) / D) * v ^ 2 / (2 * G)
      let h1 := h - hf
      if h1 - cz ≤ altura_seguridad then
        let t := recorre sqrtQ f D v altura_seguridad head_bomba cx cz (h1 + head_bomba) rest
        (cx :: cx :: t.1, h1 :: (h1 + head_bomba) :: t.2.1, (cx, head_bomba) :: t.2.2)
      else
        let t := recorre sqrtQ f D v altura_seguridad head_bomba cx cz h1 rest
        (cx :: t.1, h1 :: t.2.1, t.2.2)

/-- generar_perfil_con_bombas_automaticas (src/fluido.py lines 330-412):
forward walk inserting a pump of fixed head whenever the clearance over the
terrain falls to or below altura_seguridad. -/
def generar_perfil_con_bombas_automaticas (log10 sqrtQ : ℚ → ℚ) (x z : List ℚ)
    (densidad viscosidad velocidad diametro rugosidad : ℚ)
    (presion_inicial_m altura_seguridad head_bomba : ℚ) (num_puntos_extra : Option ℕ) :
    List ℚ × List ℚ × List (ℚ × ℚ) :=
  let xz := match num_puntos_extra with
    | none => (x, z)
    | some k => interpolar_perfil x z k
  let Re := densidad * velocidad * diametro / viscosidad
  let f := friccion log10 sqrtQ Re diametro rugosidad
  let h0 := presion_inicial_m + xz.2.headI
  let inicio : List ℚ × List ℚ × List (ℚ × ℚ) :=
    if h0 - xz.2.headI ≤ altura_seguridad then
      ([xz.1.headI, xz.1.headI], [h0, h0 + head_bomba], [(xz.1.headI, head_bomba)])
    else
      ([xz.1.headI, xz.1.headI], [h0, h0], [])
  let h_start := if h0 - xz.2.headI ≤ altura_seguridad then h0 + head_bomba else h0
  let t := recorre sqrtQ f diametro velocidad altura_seguridad head_bomba
      xz.1.headI xz.2.headI h_start (xz.1.tail.zip xz.2.tail)
  (inicio.1 ++ t.1, inicio.2.1 ++ t.2.1, inicio.2.2 ++ t.2.2)

/-! ## Specification-side definitions

These definitions follow the words of the specification (not the source) and
are used to compare the two in refinement claims. -/

/-- Least i < n with p i, and n when there is none. -/
def firstHit (p : ℕ → Bool) : ℕ → ℕ
  | 0 => 0
  | n + 1 => if p 0 then 0 else firstHit (fun i => p (i + 1)) n + 1

/-- The turbulent friction factor as §4.1 of the specification words it:
start f = 0.02; repeatedly recompute f from the right-hand side; stop when
two successive iterates differ by less than 1e-6 or after 100 iterations,
whichever comes first; return the last computed value. -/
def colebrookSpec (log10 sqrtQ : ℚ → ℚ) (Re D epsilon : ℚ) : ℚ :=
  let step := colebrookStep log10 sqrtQ Re D epsilon
  let g : ℕ → ℚ := fun i => step^[i] (1 / 50)
  g (min (firstHit (fun i => decide (|g (i + 1) - g i| < 1 / 1000000)) 100) 99 + 1)

/-- The re-sorting step as the specification claims it behaves: sort by
position only, ties broken by original order (a stable key sort). -/
def sortStepClaimed (xs hs : List ℚ) : List ℚ × List ℚ :=
  let s := List.insertionSort keyLe (xs.zip hs)
  (s.map Prod.fst, s.map Prod.snd)

/-- A position list with a strictly smallest first element, a strictly
largest last element, and every other element strictly between the two.
This is the invariant on the x-column that survives pump insertion. -/
def Anchor (xs : List ℚ) : Prop :=
  ∃ x0 xmid xn, xs = x0 :: xmid ++ [xn] ∧ (∀ a ∈ xmid, x0 < a ∧ a < xn) ∧ x0 < xn

/-! ## Helper lemmas -/

theorem colebrookGo_eq_iterate (step : ℚ → ℚ) : ∀ (n : ℕ) (x : ℚ),
    colebrookGo step (n + 1) x =
      step^[min (firstHit (fun i => decide (|step^[i + 1] x - step^[i] x| < 1 / 1000000)) (n + 1)) n + 1] x := by
  intro n
  induction n with
  | zero =>
      intro x
      simp only [colebrookGo, firstHit]
      split <;> simp
  | succ n ih =>
      intro x
      have hunf : colebrookGo step (n + 2) x =
          if |step x - x| < 1 / 1000000 then step x else colebrookGo step (n + 1) (step x) := rfl
      by_cases h0 : |step x - x| < 1 / 1000000
      · have hp : (fun i => decide (|step^[i + 1] x - step^[i] x| < 1 / 1000000)) 0 = true := by
          simpa using h0
        rw [hunf, if_pos h0]
        have : firstHit (fun i => decide (|step^[i + 1] x - step^[i] x| < 1 / 1000000)) (n + 2) = 0 := by
          simp only [firstHit, hp, if_pos]
        rw [this]
        simp
      · have hp : (fun i => decide (|step^[i + 1] x - step^[i] x| < 1 / 1000000)) 0 = false := by
          simpa using h0
        rw [hunf, if_neg h0, ih (step x)]
        have hq : (fun i => decide (|step^[i + 1] (step x) - step^[i] (step x)| < 1 / 1000000)) =
            fun i => decide (|step^[i + 1 + 1] x - step^[i + 1] x| < 1 / 1000000) := by
          funext i
          rw [← Function.iterate_succ_apply step (i + 1) x, ← Function.iterate_succ_apply step i x]
        have hfh : firstHit (fun i => decide (|step^[i + 1] x - step^[i] x| < 1 / 1000000)) (n + 2) =
            firstHit (fun i => decide (|step^[i + 1 + 1] x - step^[i + 1] x| < 1 / 1000000)) (n + 1) + 1 := by
          simp only [firstHit, hp]
          simp
        rw [hq, hfh, Nat.succ_min_succ]
        rw [← Function.iterate_succ_apply step (min (firstHit (fun i => decide (|step^[i + 1 + 1] x - step^[i + 1] x| < 1 / 1000000)) (n + 1)) n + 1) x]

/-- C5: for positive reynolds, diameter and nonnegative roughness, the
friction selection returns exactly 64/Re in the laminar regime Re < 2000,
and otherwise the value described by the specification: iterate the
Colebrook right-hand side from f = 0.02, stopping when two successive
iterates differ by less than 1e-6 or after 100 iterations, whichever comes
first, returning the last computed value without signaling an error. -/
theorem friccion_spec (log10 sqrtQ : ℚ → ℚ) (Re D epsilon : ℚ)
    (hRe : 0 < Re) (hD : 0 < D) (heps : 0 ≤ epsilon) :
    friccion log10 sqrtQ Re D epsilon =
      if Re < 2000 then 64 / Re else colebrookSpec log10 sqrtQ Re D epsilon := by
  unfold friccion colebrookSpec colebrook
  split
  · rfl
  · exact colebrookGo_eq_iterate (colebrookStep log10 sqrtQ Re D epsilon) 99 (1 / 50)

/-- Witness for C5 at a concrete laminar input. -/
theorem friccion_spec_witness :
    friccion (fun q => q) (fun q => q) 1000 1 0 =
      if (1000 : ℚ) < 2000 then 64 / 1000 else colebrookSpec (fun q => q) (fun q => q) 1000 1 0 :=
  friccion_spec (fun q => q) (fun q => q) 1000 1 0 (by norm_num) (by norm_num) (le_refl 0)

theorem pyInsert_length (a : ℚ) : ∀ (n : ℕ) (l : List ℚ), (pyInsert n a l).length = l.length + 1
  | 0, _ => rfl
  | _ + 1, [] => rfl
  | n + 1, _ :: l => by simp [pyInsert, pyInsert_length a n l]

theorem bumpFrom_length (d : ℚ) : ∀ (k : ℕ) (l : List ℚ), (bumpFrom k d l).length = l.length
  | k, [] => by cases k <;> rfl
  | 0, _ :: l => by simp [bumpFrom, bumpFrom_length d 0 l]
  | k + 1, _ :: l => by simp [bumpFrom, bumpFrom_length d k l]

theorem sortStep_length (xs hs : List ℚ) (h : xs.length = hs.length) :
    (sortStep xs hs).1.length = xs.length ∧ (sortStep xs hs).2.length = hs.length := by
  have hp := (List.perm_insertionSort pairLe (xs.zip hs)).length_eq
  constructor <;> simp [sortStep, hp, List.length_zip, h]

theorem agregar_bomba_sin_ajuste_length (xs hs : List ℚ) (x_b hd : ℚ)
    (hlen : xs.length = hs.length) (hne : hs ≠ []) :
    (agregar_bomba_sin_ajuste xs hs x_b hd).1.length = (agregar_bomba_sin_ajuste xs hs x_b hd).2.length ∧
      (agregar_bomba_sin_ajuste xs hs x_b hd).2 ≠ [] := by
  unfold agregar_bomba_sin_ajuste
  by_cases hmem : x_b ∈ xs
  · simp only [if_pos hmem]
    have hs1 := sortStep_length xs hs hlen
    constructor
    · simp [pyInsert_length, bumpFrom_length, hs1.1, hs1.2, hlen]
    · intro hcon
      have hlencon := congrArg List.length hcon
      rw [bumpFrom_length, pyInsert_length, hs1.2] at hlencon
      simp at hlencon
  · simp only [if_neg hmem]
    have hlen2 : (xs ++ [x_b]).length = (hs ++ [npInterp x_b xs hs]).length := by
      simp [hlen]
    have hs1 := sortStep_length (xs ++ [x_b]) (hs ++ [npInterp x_b xs hs]) hlen2
    constructor
    · simp only [pyInsert_length, bumpFrom_length]
      rw [hs1.1, hs1.2]
      simp [hlen]
    · intro hcon
      have hlencon := congrArg List.length hcon
      rw [bumpFrom_length, pyInsert_length, hs1.2] at hlencon
      simp at hlencon

theorem getLastD_map_add (l : List ℚ) (d : ℚ) (h : l ≠ []) :
    (l.map (fun v => v + d)).getLastD 0 = l.getLastD 0 + d := by
  rw [List.getLastD_eq_getLast?, List.getLastD_eq_getLast?, List.getLast?_map]
  cases hcl : l.getLast? with
  | none => exact absurd (List.getLast?_eq_none_iff.mp hcl) h
  | some a => simp

theorem last_after_shift (l : List ℚ) (target : ℚ) (h : l ≠ []) :
    (l.map (fun v => v + (target - l.getLastD 0))).getLastD 0 = target := by
  rw [getLastD_map_add l _ h]
  ring

theorem foldl_sin_ajuste_inv (bs : List (ℚ × ℚ)) : ∀ acc : List ℚ × List ℚ,
    acc.1.length = acc.2.length → acc.2 ≠ [] →
    ((bs.foldl (fun a b => agregar_bomba_sin_ajuste a.1 a.2 b.1 b.2) acc).1.length =
        (bs.foldl (fun a b => agregar_bomba_sin_ajuste a.1 a.2 b.1 b.2) acc).2.length ∧
      (bs.foldl (fun a b => agregar_bomba_sin_ajuste a.1 a.2 b.1 b.2) acc).2 ≠ []) := by
  induction bs with
  | nil => intro acc h1 h2; exact ⟨h1, h2⟩
  | cons b bs ih =>
      intro acc h1 h2
      have hstep := agregar_bomba_sin_ajuste_length acc.1 acc.2 b.1 b.2 h1 h2
      exact ih _ hstep.1 hstep.2

theorem acumula_reversa_ne_nil (sqrtQ : ℚ → ℚ) (f D v : ℚ) :
    ∀ (pts : List (ℚ × ℚ)) (px pz h : ℚ), acumula_reversa sqrtQ f D v px pz h pts ≠ [] := by
  intro pts px pz h
  cases pts with
  | nil => simp [acumula_reversa]
  | cons c rest => cases c; simp [acumula_reversa]

theorem acumula_reversa_length (sqrtQ : ℚ → ℚ) (f D v : ℚ) :
    ∀ (pts : List (ℚ × ℚ)) (px pz h : ℚ),
      (acumula_reversa sqrtQ f D v px pz h pts).length = pts.length + 1 := by
  intro pts
  induction pts with
  | nil => intro px pz h; rfl
  | cons c rest ih => cases c; intro px pz h; simp [acumula_reversa, ih]

/-- C1: for every terrain of length at least 2 and positive fluid and pipe
parameters, the head profile returned by generar_perfil_presion has its last
sample equal to presion_final_m plus the last terrain elevation — exactly,
hence in particular within the tolerance 1e-9 — regardless of the supplied
pump list. -/
theorem generar_perfil_presion_boundary (log10 sqrtQ : ℚ → ℚ) (x z : List ℚ)
    (densidad viscosidad velocidad diametro rugosidad presion_final_m : ℚ)
    (bombas : List (ℚ × ℚ))
    (hx : 2 ≤ x.length) (hxz : x.length = z.length)
    (hden : 0 < densidad) (hvis : 0 < viscosidad) (hvel : 0 < velocidad) (hdia : 0 < diametro) :
    (generar_perfil_presion log10 sqrtQ x z densidad viscosidad velocidad diametro rugosidad
        presion_final_m bombas).2.getLastD 0 = presion_final_m + z.getLastD 0 ∧
      |(generar_perfil_presion log10 sqrtQ x z densidad viscosidad velocidad diametro rugosidad
        presion_final_m bombas).2.getLastD 0 - (presion_final_m + z.getLastD 0)| ≤ 1 / 1000000000 := by
  have hmain : (generar_perfil_presion log10 sqrtQ x z densidad viscosidad velocidad diametro
      rugosidad presion_final_m bombas).2.getLastD 0 = presion_final_m + z.getLastD 0 := by
    unfold generar_perfil_presion
    simp only
    set f := friccion log10 sqrtQ (densidad * velocidad * diametro / viscosidad) diametro rugosidad
    set h_list := (acumula_reversa sqrtQ f diametro velocidad x.reverse.headI z.reverse.headI
        (presion_final_m + z.reverse.headI) (x.reverse.tail.zip z.reverse.tail)).reverse
    have hne : h_list ≠ [] := by
      simp only [h_list]
      intro hcon
      exact acumula_reversa_ne_nil sqrtQ f diametro velocidad _ _ _ _
        (by simpa using congrArg List.reverse hcon)
    have hlen : x.length = h_list.length := by
      simp only [h_list]
      rw [List.length_reverse, acumula_reversa_length]
      rw [List.length_zip, List.length_tail, List.length_tail,
        List.length_reverse, List.length_reverse, ← hxz]
      omega
    have hfold := foldl_sin_ajuste_inv (List.insertionSort keyLe bombas) (x, h_list) hlen hne
    exact last_after_shift _ _ hfold.2
  refine ⟨hmain, ?_⟩
  rw [hmain]
  simp

/-- Witness for C1 at a concrete input. -/
theorem generar_perfil_presion_boundary_witness :
    (generar_perfil_presion (fun _ => 0) (fun _ => 0) [0, 1] [0, 0] 1000 (1 / 1000) 2 (1 / 10)
        (1 / 5000) 10 [(1 / 2, 5)]).2.getLastD 0 = 10 + ([0, 0] : List ℚ).getLastD 0 ∧
      |(generar_perfil_presion (fun _ => 0) (fun _ => 0) [0, 1] [0, 0] 1000 (1 / 1000) 2 (1 / 10)
        (1 / 5000) 10 [(1 / 2, 5)]).2.getLastD 0 - (10 + ([0, 0] : List ℚ).getLastD 0)| ≤ 1 / 1000000000 :=
  generar_perfil_presion_boundary (fun _ => 0) (fun _ => 0) [0, 1] [0, 0] 1000 (1 / 1000) 2 (1 / 10)
    (1 / 5000) 10 [(1 / 2, 5)] (by decide) (by decide) (by norm_num) (by norm_num) (by norm_num)
    (by norm_num)

theorem zpow_neg_two_nonneg (x : ℚ) : 0 ≤ x ^ (-2 : ℤ) := by
  rw [zpow_neg]
  apply inv_nonneg.mpr
  rw [zpow_two]
  exact mul_self_nonneg x

theorem colebrookStep_nonneg (log10 sqrtQ : ℚ → ℚ) (Re D epsilon f : ℚ) :
    0 ≤ colebrookStep log10 sqrtQ Re D epsilon f :=
  zpow_neg_two_nonneg _

theorem colebrookGo_nonneg (step : ℚ → ℚ) (hstep : ∀ q, 0 ≤ step q) :
    ∀ (n : ℕ) (f : ℚ), 0 ≤ f → 0 ≤ colebrookGo step n f := by
  intro n
  induction n with
  | zero => intro f hf; exact hf
  | succ n ih =>
      intro f hf
      simp only [colebrookGo]
      split
      · exact hstep f
      · exact ih (step f) (hstep f)

theorem friccion_nonneg (log10 sqrtQ : ℚ → ℚ) (Re D epsilon : ℚ) (hRe : 0 < Re) :
    0 ≤ friccion log10 sqrtQ Re D epsilon := by
  unfold friccion
  split
  · positivity
  · exact colebrookGo_nonneg _ (fun q => colebrookStep_nonneg log10 sqrtQ Re D epsilon q) 100
      (1 / 50) (by norm_num)

theorem acumula_reversa_mono (sqrtQ : ℚ → ℚ) (f D v : ℚ)
    (hsq : ∀ q, 0 ≤ sqrtQ q) (hf : 0 ≤ f) (hD : 0 < D) :
    ∀ (pts : List (ℚ × ℚ)) (px pz h : ℚ),
      List.Pairwise (· ≤ ·) (acumula_reversa sqrtQ f D v px pz h pts) ∧
        ∀ y ∈ acumula_reversa sqrtQ f D v px pz h pts, h ≤ y := by
  intro pts
  induction pts with
  | nil =>
      intro px pz h
      constructor
      · simp [acumula_reversa]
      · intro y hy
        simp [acumula_reversa] at hy
        exact hy ▸ le_refl h
  | cons c rest ih =>
      rcases c with ⟨cx, cz⟩
      intro px pz h
      have hhf : 0 ≤ f * (sqrtQ ((px - cx) ^ 2 + (pz - cz) ^ 2) / D) * v ^ 2 / (2 * G) := by
        apply div_nonneg
        · apply mul_nonneg
          · exact mul_nonneg hf (div_nonneg (hsq _) hD.le)
          · positivity
        · norm_num [G]
      rcases ih cx cz (h + f * (sqrtQ ((px - cx) ^ 2 + (pz - cz) ^ 2) / D) * v ^ 2 / (2 * G)) with
        ⟨hpw, hall⟩
      constructor
      · refine List.Pairwise.cons ?_ hpw
        intro y hy
        have := hall y hy
        linarith
      · intro y hy
        rcases List.mem_cons.mp hy with hy1 | hy2
        · exact hy1 ▸ le_refl h
        · have := hall y hy2
          linarith

/-- C6: for every terrain of length at least 2 and positive fluid and pipe
parameters (with the real square root being nonnegative), the head sequence
returned by generar_perfil_presion with an empty pump list is non-increasing
along ascending position: every later sample is at most every earlier one. -/
theorem generar_perfil_presion_monotone (log10 sqrtQ : ℚ → ℚ) (x z : List ℚ)
    (densidad viscosidad velocidad diametro rugosidad presion_final_m : ℚ)
    (hx : 2 ≤ x.length) (hxz : x.length = z.length)
    (hden : 0 < densidad) (hvis : 0 < viscosidad) (hvel : 0 < velocidad) (hdia : 0 < diametro)
    (hrug : 0 ≤ rugosidad) (hsq : ∀ q, 0 ≤ sqrtQ q) :
    List.Pairwise (fun a b => b ≤ a)
      (generar_perfil_presion log10 sqrtQ x z densidad viscosidad velocidad diametro rugosidad
        presion_final_m []).2 := by
  unfold generar_perfil_presion
  simp only
  have hsortnil : List.insertionSort keyLe ([] : List (ℚ × ℚ)) = [] := rfl
  rw [hsortnil]
  simp only [List.foldl_nil]
  have hRe : 0 < densidad * velocidad * diametro / viscosidad := by positivity
  have hf := friccion_nonneg log10 sqrtQ (densidad * velocidad * diametro / viscosidad)
    diametro rugosidad hRe
  have hmono := (acumula_reversa_mono sqrtQ
    (friccion log10 sqrtQ (densidad * velocidad * diametro / viscosidad) diametro rugosidad)
    diametro velocidad hsq hf hdia (x.reverse.tail.zip z.reverse.tail) x.reverse.headI
    z.reverse.headI (presion_final_m + z.reverse.headI)).1
  have hrev : List.Pairwise (fun a b => b ≤ a)
      (acumula_reversa sqrtQ
        (friccion log10 sqrtQ (densidad * velocidad * diametro / viscosidad) diametro rugosidad)
        diametro velocidad x.reverse.headI z.reverse.headI (presion_final_m + z.reverse.headI)
        (x.reverse.tail.zip z.reverse.tail)).reverse := by
    rw [List.pairwise_reverse]
    exact hmono
  exact hrev.map _ (fun a b hab => by
    show _ + _ ≤ _ + _
    linarith)

/-- Witness for C6 at a concrete input. -/
theorem generar_perfil_presion_monotone_witness :
    List.Pairwise (fun a b => b ≤ a)
      (generar_perfil_presion (fun _ => 0) (fun _ => 0) [0, 1] [0, 0] 1000 (1 / 1000) 2 (1 / 10)
        (1 / 5000) 10 []).2 :=
  generar_perfil_presion_monotone (fun _ => 0) (fun _ => 0) [0, 1] [0, 0] 1000 (1 / 1000) 2
    (1 / 10) (1 / 5000) 10 (by decide) (by decide) (by norm_num) (by norm_num) (by norm_num)
    (by norm_num) (by norm_num) (fun q => le_refl 0)

theorem recorre_count_mono (sqrtQ : ℚ → ℚ) (f D v head_bomba : ℚ) :
    ∀ (pts : List (ℚ × ℚ)) (px pz h1 h2 m1 m2 : ℚ) (k : ℕ), m1 ≤ m2 → h2 = h1 + k * head_bomba →
    (recorre sqrtQ f D v m1 head_bomba px pz h1 pts).2.2.length ≤
      k + (recorre sqrtQ f D v m2 head_bomba px pz h2 pts).2.2.length := by
  intro pts
  induction pts with
  | nil =>
      intro px pz h1 h2 m1 m2 k hm hk
      simp [recorre]
  | cons c rest ih =>
      rcases c with ⟨cx, cz⟩
      intro px pz h1 h2 m1 m2 k hm hk
      simp only [recorre]
      set hf := f * (sqrtQ ((cx - px) ^ 2 + (cz - pz) ^ 2) / D) * v ^ 2 / (2 * G) with hhf
      have hk2 : h2 - hf = h1 - hf + k * head_bomba := by rw [hk]; ring
      by_cases ht1 : h1 - hf - cz ≤ m1
      · by_cases ht2 : h2 - hf - cz ≤ m2
        · rw [if_pos ht1, if_pos ht2]
          simp only [List.length_cons]
          have := ih cx cz (h1 - hf + head_bomba) (h2 - hf + head_bomba) m1 m2 k hm
            (by rw [hk2]; ring)
          omega
        · rcases k with - | j
          · exfalso
            apply ht2
            have : h2 - hf = h1 - hf := by rw [hk2]; push_cast; ring
            rw [this]
            exact le_trans ht1 hm
          · rw [if_pos ht1, if_neg ht2]
            simp only [List.length_cons]
            have := ih cx cz (h1 - hf + head_bomba) (h2 - hf) m1 m2 j hm
              (by rw [hk2]; push_cast; ring)
            omega
      · by_cases ht2 : h2 - hf - cz ≤ m2
        · rw [if_neg ht1, if_pos ht2]
          simp only [List.length_cons]
          have := ih cx cz (h1 - hf) (h2 - hf + head_bomba) m1 m2 (k + 1) hm
            (by rw [hk2]; push_cast; ring)
          omega
        · rw [if_neg ht1, if_neg ht2]
          exact ih cx cz (h1 - hf) (h2 - hf) m1 m2 k hm hk2

/-- C7: for a fixed terrain, fluid, pipe, initial head and pump head, the
number of pumps inserted by generar_perfil_con_bombas_automaticas is
monotonically non-decreasing in the safety margin. -/
theorem generar_bombas_automaticas_margen_mono (log10 sqrtQ : ℚ → ℚ) (x z : List ℚ)
    (densidad viscosidad velocidad diametro rugosidad : ℚ)
    (presion_inicial_m m1 m2 head_bomba : ℚ) (num_puntos_extra : Option ℕ)
    (hm : m1 ≤ m2) :
    (generar_perfil_con_bombas_automaticas log10 sqrtQ x z densidad viscosidad velocidad
        diametro rugosidad presion_inicial_m m1 head_bomba num_puntos_extra).2.2.length ≤
      (generar_perfil_con_bombas_automaticas log10 sqrtQ x z densidad viscosidad velocidad
        diametro rugosidad presion_inicial_m m2 head_bomba num_puntos_extra).2.2.length := by
  unfold generar_perfil_con_bombas_automaticas
  simp only
  set xz := (match num_puntos_extra with
    | none => (x, z)
    | some k => interpolar_perfil x z k) with hxz
  set f := friccion log10 sqrtQ (densidad * velocidad * diametro / viscosidad) diametro
    rugosidad with hfdef
  set h0 := presion_inicial_m + xz.2.headI with hh0
  by_cases ht1 : h0 - xz.2.headI ≤ m1
  · have ht2 : h0 - xz.2.headI ≤ m2 := le_trans ht1 hm
    rw [if_pos ht1, if_pos ht2, if_pos ht1, if_pos ht2]
    simp only [List.length_append, List.length_cons, List.length_nil]
    have := recorre_count_mono sqrtQ f diametro velocidad head_bomba (xz.1.tail.zip xz.2.tail)
      xz.1.headI xz.2.headI (h0 + head_bomba) (h0 + head_bomba) m1 m2 0 hm (by push_cast; ring)
    omega
  · by_cases ht2 : h0 - xz.2.headI ≤ m2
    · rw [if_neg ht1, if_pos ht2, if_neg ht1, if_pos ht2]
      simp only [List.length_append, List.length_cons, List.length_nil]
      have := recorre_count_mono sqrtQ f diametro velocidad head_bomba (xz.1.tail.zip xz.2.tail)
        xz.1.headI xz.2.headI h0 (h0 + head_bomba) m1 m2 1 hm (by push_cast; ring)
      omega
    · rw [if_neg ht1, if_neg ht2, if_neg ht1, if_neg ht2]
      simp only [List.length_append, List.length_cons, List.length_nil]
      have := recorre_count_mono sqrtQ f diametro velocidad head_bomba (xz.1.tail.zip xz.2.tail)
        xz.1.headI xz.2.headI h0 h0 m1 m2 0 hm (by push_cast; ring)
      omega

/-- Witness for C7 at a concrete input. -/
theorem generar_bombas_automaticas_margen_mono_witness :
    (generar_perfil_con_bombas_automaticas (fun _ => 0) (fun _ => 0) [0, 1, 2] [0, 0, 0] 1 1 1 1 0
        5 1 10 none).2.2.length ≤
      (generar_perfil_con_bombas_automaticas (fun _ => 0) (fun _ => 0) [0, 1, 2] [0, 0, 0] 1 1 1 1 0
        5 6 10 none).2.2.length :=
  generar_bombas_automaticas_margen_mono (fun _ => 0) (fun _ => 0) [0, 1, 2] [0, 0, 0] 1 1 1 1 0
    5 1 6 10 none (by norm_num)

theorem linspace_length (a b : ℚ) (n : ℕ) : (linspace a b n).length = n := by
  simp [linspace]

theorem linspace_headI (a b : ℚ) (k : ℕ) : (linspace a b (k + 2)).headI = a := by
  have h : k + 2 = (k + 1) + 1 := rfl
  rw [linspace, h, List.range_succ_eq_map, List.map_cons]
  simp

theorem getLastD_concat (l : List ℚ) (a d : ℚ) : (l ++ [a]).getLastD d = a := by
  rw [List.getLastD_eq_getLast?]
  simp

theorem getLastD_irrel (l : List ℚ) (d e : ℚ) (h : l ≠ []) : l.getLastD d = l.getLastD e := by
  rw [List.getLastD_eq_getLast?, List.getLastD_eq_getLast?]
  cases hl : l.getLast? with
  | none => exact absurd (List.getLast?_eq_none_iff.mp hl) h
  | some a => simp

theorem getLastD_append_right (l₂ : List ℚ) (d : ℚ) (h : l₂ ≠ []) :
    ∀ l₁ : List ℚ, (l₁ ++ l₂).getLastD d = l₂.getLastD d := by
  intro l₁
  induction l₁ with
  | nil => rfl
  | cons a l₁ ih =>
      rw [List.cons_append, List.getLastD_cons]
      rcases l₁ with - | ⟨b, l₁⟩
      · simp only [List.nil_append]
        cases l₂ with
        | nil => exact absurd rfl h
        | cons c l₂ => rw [List.getLastD_cons, List.getLastD_cons]
      · rw [List.cons_append, List.getLastD_cons] at ih ⊢
        exact ih

theorem linspace_getLastD (a b : ℚ) (k : ℕ) (d : ℚ) : (linspace a b (k + 2)).getLastD d = b := by
  rw [linspace, List.range_succ, List.map_append]
  simp only [List.map_cons, List.map_nil]
  rw [getLastD_concat]
  push_cast
  have hne : ((k : ℚ) + 1) ≠ 0 := by positivity
  have hsimp : ((k : ℚ) + 2 - 1) = (k : ℚ) + 1 := by ring
  rw [hsimp]
  field_simp

theorem tail_getLastD (l : List ℚ) (d : ℚ) (h : 2 ≤ l.length) : l.tail.getLastD d = l.getLastD d := by
  rcases l with - | ⟨a, l⟩
  · simp at h
  rcases l with - | ⟨b, l⟩
  · simp at h
  rw [List.tail_cons, List.getLastD_eq_getLast?, List.getLastD_eq_getLast?]
  congr 1

theorem linspace_chain (a b : ℚ) (k : ℕ) (hab : a < b) :
    List.Chain' (· < ·) (linspace a b (k + 2)) := by
  have h : k + 2 = (k + 1) + 1 := rfl
  rw [linspace, List.chain'_map, h, List.chain'_range_succ]
  intro i hi
  have hba : (0 : ℚ) < b - a := by linarith
  have hk : (0 : ℚ) < ((k + 1 + 1 : ℕ) : ℚ) - 1 := by push_cast; linarith
  have hlt : (b - a) * (i : ℚ) < (b - a) * ((i + 1 : ℕ) : ℚ) := by push_cast; nlinarith
  have hstep := (div_lt_div_right hk).mpr hlt
  linarith

theorem linspace_tail_mem (a b : ℚ) (k : ℕ) (hab : a < b) :
    ∀ y ∈ (linspace a b (k + 2)).tail, a < y := by
  intro y hy
  have h : k + 2 = (k + 1) + 1 := rfl
  rw [linspace, h, List.range_succ_eq_map, List.map_cons, List.tail_cons, List.map_map] at hy
  simp only [List.mem_map, List.mem_range, Function.comp] at hy
  obtain ⟨j, hj, rfl⟩ := hy
  have hba : (0 : ℚ) < b - a := by linarith
  have h1 : (0 : ℚ) < ((j : ℚ) + 1) := by positivity
  have h2 : (0 : ℚ) < ((k : ℚ) + 1) + 1 - 1 := by
    have hk0 : (0 : ℚ) ≤ (k : ℚ) := Nat.cast_nonneg k
    linarith
  have h3 : 0 < (b - a) * ((j : ℚ) + 1) / (((k : ℚ) + 1) + 1 - 1) :=
    div_pos (mul_pos hba h1) h2
  push_cast
  push_cast at h3
  linarith

theorem interpola_cola_length (k : ℕ) : ∀ (pts : List (ℚ × ℚ)) (a c : ℚ),
    (interpola_cola k a c pts).1.length = pts.length * (k + 1) ∧
      (interpola_cola k a c pts).2.length = pts.length * (k + 1) := by
  intro pts
  induction pts with
  | nil => intro a c; simp [interpola_cola]
  | cons p rest ih =>
      rcases p with ⟨b, d⟩
      intro a c
      have h1 := (ih b d).1
      have h2 := (ih b d).2
      constructor
      · simp only [interpola_cola, List.length_append, List.length_tail, linspace_length, h1,
          List.length_cons]
        ring_nf
        omega
      · simp only [interpola_cola, List.length_append, List.length_tail, linspace_length, h2,
          List.length_cons]
        ring_nf
        omega

theorem interpola_cola_last (k : ℕ) : ∀ (pts : List (ℚ × ℚ)) (a c d₀ : ℚ), pts ≠ [] →
    (interpola_cola k a c pts).1.getLastD d₀ = (pts.getLastD (0, 0)).1 ∧
      (interpola_cola k a c pts).2.getLastD d₀ = (pts.getLastD (0, 0)).2 := by
  intro pts
  induction pts with
  | nil => intro a c d₀ h; exact absurd rfl h
  | cons p rest ih =>
      rcases p with ⟨b, d⟩
      intro a c d₀ _
      rcases rest with - | ⟨q, rest⟩
      · constructor
        · simp only [interpola_cola, List.append_nil]
          rw [tail_getLastD _ _ (by rw [linspace_length]; omega), linspace_getLastD]
          simp [List.getLastD_cons]
        · simp only [interpola_cola, List.append_nil]
          rw [tail_getLastD _ _ (by rw [linspace_length]; omega), linspace_getLastD]
          simp [List.getLastD_cons]
      · have hne1 : (interpola_cola k b d (q :: rest)).1 ≠ [] := by
          intro hcon
          have := (interpola_cola_length k (q :: rest) b d).1
          rw [hcon] at this
          simp at this
        have hne2 : (interpola_cola k b d (q :: rest)).2 ≠ [] := by
          intro hcon
          have := (interpola_cola_length k (q :: rest) b d).2
          rw [hcon] at this
          simp at this
        have hih := ih b d d₀ (by simp)
        constructor
        · show ((linspace a b (k + 2)).tail ++ (interpola_cola k b d (q :: rest)).1).getLastD d₀ = _
          rw [getLastD_append_right _ _ hne1, hih.1]
          simp [List.getLastD_cons]
        · show ((linspace c d (k + 2)).tail ++ (interpola_cola k b d (q :: rest)).2).getLastD d₀ = _
          rw [getLastD_append_right _ _ hne2, hih.2]
          simp [List.getLastD_cons]

theorem headI_append_of_ne_nil (l₁ l₂ : List ℚ) (h : l₁ ≠ []) : (l₁ ++ l₂).headI = l₁.headI := by
  cases l₁ with
  | nil => exact absurd rfl h
  | cons a l => rfl

theorem linspace_ne_nil (a b : ℚ) (k : ℕ) : linspace a b (k + 2) ≠ [] := by
  intro h
  have := linspace_length a b (k + 2)
  rw [h] at this
  simp at this

theorem linspace_tail_ne_nil (a b : ℚ) (k : ℕ) : (linspace a b (k + 2)).tail ≠ [] := by
  intro h
  have := congrArg List.length h
  rw [List.length_tail, linspace_length] at this
  simp at this

theorem getLast?_of_getLastD (l : List ℚ) (h : l ≠ []) : l.getLast? = some (l.getLastD 0) := by
  rw [List.getLastD_eq_getLast?]
  cases hl : l.getLast? with
  | none => exact absurd (List.getLast?_eq_none_iff.mp hl) h
  | some a => simp

theorem interpola_cola_chain (k : ℕ) : ∀ (pts : List (ℚ × ℚ)) (a c : ℚ),
    List.Chain' (· < ·) (a :: pts.map Prod.fst) →
    List.Chain' (· < ·) (interpola_cola k a c pts).1 ∧
      ∀ y ∈ (interpola_cola k a c pts).1, a < y := by
  intro pts
  induction pts with
  | nil =>
      intro a c _
      constructor
      · simp [interpola_cola]
      · intro y hy
        simp [interpola_cola] at hy
  | cons p rest ih =>
      rcases p with ⟨b, d⟩
      intro a c hch
      rw [List.map_cons, List.chain'_cons] at hch
      obtain ⟨hab, hch2⟩ := hch
      have hih := ih b d hch2
      have hmem1 : ∀ y ∈ (interpola_cola k a c ((b, d) :: rest)).1, a < y := by
        intro y hy
        show a < y
        have hy2 : y ∈ (linspace a b (k + 2)).tail ++ (interpola_cola k b d rest).1 := hy
        rcases List.mem_append.mp hy2 with h1 | h2
        · exact linspace_tail_mem a b k hab y h1
        · exact lt_trans hab (hih.2 y h2)
      refine ⟨?_, hmem1⟩
      show List.Chain' (· < ·) ((linspace a b (k + 2)).tail ++ (interpola_cola k b d rest).1)
      rw [List.chain'_append]
      refine ⟨(linspace_chain a b k hab).tail, hih.1, ?_⟩
      intro u hu y hy
      have hgl : (linspace a b (k + 2)).tail.getLast? = some b := by
        rw [getLast?_of_getLastD _ (linspace_tail_ne_nil a b k),
          tail_getLastD _ _ (by rw [linspace_length]; omega), linspace_getLastD]
      rw [hgl, Option.mem_def] at hu
      cases hu
      exact hih.2 y (List.mem_of_mem_head? hy)

theorem getLastD_cons_cons {α : Type} (a b d : α) (l : List α) :
    (a :: b :: l).getLastD d = (b :: l).getLastD d := by
  rw [List.getLastD_eq_getLast?, List.getLastD_eq_getLast?]
  congr 1

theorem zip_getLastD (xs : List ℚ) : ∀ zs : List ℚ, xs.length = zs.length → xs ≠ [] →
    (xs.zip zs).getLastD (0, 0) = (xs.getLastD 0, zs.getLastD 0) := by
  induction xs with
  | nil => intro zs hlen hne; exact absurd rfl hne
  | cons a xs ih =>
      intro zs hlen hne
      cases zs with
      | nil => simp at hlen
      | cons b zs =>
          cases xs with
          | nil =>
              cases zs with
              | nil => rfl
              | cons c zs => simp at hlen
          | cons a2 xs2 =>
              cases zs with
              | nil => simp at hlen
              | cons b2 zs2 =>
                  rw [List.zip_cons_cons, List.zip_cons_cons, getLastD_cons_cons,
                    ← List.zip_cons_cons, ih (b2 :: zs2) (by simpa using hlen) (by simp),
                    getLastD_cons_cons, getLastD_cons_cons]

/-- C9 (amended): for a terrain of n at least 2 strictly increasing points and
k extra points per segment, interpolar_perfil returns an ordered polyline of
exactly (n-1)(k+1)+1 points whose first and last points equal the input
first and last points; it is strictly longer than the input exactly when
k is at least 1 (for k = 0 the length is unchanged). -/
theorem interpolar_perfil_spec (x z : List ℚ) (k : ℕ)
    (hx : 2 ≤ x.length) (hxz : x.length = z.length) (hch : List.Chain' (· < ·) x) :
    (interpolar_perfil x z k).1.length = (x.length - 1) * (k + 1) + 1 ∧
    (interpolar_perfil x z k).2.length = (x.length - 1) * (k + 1) + 1 ∧
    (interpolar_perfil x z k).1.headI = x.headI ∧
    (interpolar_perfil x z k).2.headI = z.headI ∧
    (interpolar_perfil x z k).1.getLastD 0 = x.getLastD 0 ∧
    (interpolar_perfil x z k).2.getLastD 0 = z.getLastD 0 ∧
    List.Chain' (· < ·) (interpolar_perfil x z k).1 ∧
    (1 ≤ k → x.length < (interpolar_perfil x z k).1.length) := by
  rcases x with - | ⟨x0, x⟩
  · simp at hx
  rcases x with - | ⟨x1, xr⟩
  · simp at hx
  rcases z with - | ⟨z0, z⟩
  · simp at hxz
  rcases z with - | ⟨z1, zr⟩
  · simp at hxz
  have hlxz : xr.length = zr.length := by simpa using hxz
  have hfst : (xr.zip zr).map Prod.fst = xr := List.map_fst_zip xr zr (le_of_eq hlxz)
  have hzlen : (xr.zip zr).length = xr.length := by
    rw [List.length_zip, hlxz, min_self]
  have hres : interpolar_perfil (x0 :: x1 :: xr) (z0 :: z1 :: zr) k =
      (linspace x0 x1 (k + 2) ++ (interpola_cola k x1 z1 (xr.zip zr)).1,
       linspace z0 z1 (k + 2) ++ (interpola_cola k x1 z1 (xr.zip zr)).2) := rfl
  have hlen1 : (interpolar_perfil (x0 :: x1 :: xr) (z0 :: z1 :: zr) k).1.length =
      ((x0 :: x1 :: xr).length - 1) * (k + 1) + 1 := by
    rw [hres]
    simp only [List.length_append, linspace_length, (interpola_cola_length k (xr.zip zr) x1 z1).1,
      hzlen, List.length_cons]
    have hr : (xr.length + 1 + 1 - 1) = xr.length + 1 := by omega
    rw [hr]
    ring
  have hlen2 : (interpolar_perfil (x0 :: x1 :: xr) (z0 :: z1 :: zr) k).2.length =
      ((x0 :: x1 :: xr).length - 1) * (k + 1) + 1 := by
    rw [hres]
    simp only [List.length_append, linspace_length, (interpola_cola_length k (xr.zip zr) x1 z1).2,
      hzlen, List.length_cons]
    have hr : (xr.length + 1 + 1 - 1) = xr.length + 1 := by omega
    rw [hr]
    ring
  have hch1 : x0 < x1 := (List.chain'_cons.mp hch).1
  have hchtail : List.Chain' (· < ·) (x1 :: (xr.zip zr).map Prod.fst) := by
    rw [hfst]
    exact (List.chain'_cons.mp hch).2
  have hcola := interpola_cola_chain k (xr.zip zr) x1 z1 hchtail
  refine ⟨hlen1, hlen2, ?_, ?_, ?_, ?_, ?_, ?_⟩
  · rw [hres]
    show (linspace x0 x1 (k + 2) ++ _).headI = x0
    rw [headI_append_of_ne_nil _ _ (linspace_ne_nil x0 x1 k)]
    exact linspace_headI x0 x1 k
  · rw [hres]
    show (linspace z0 z1 (k + 2) ++ _).headI = z0
    rw [headI_append_of_ne_nil _ _ (linspace_ne_nil z0 z1 k)]
    exact linspace_headI z0 z1 k
  · rw [hres]
    rcases hxr : xr with - | ⟨x2, xr2⟩
    · have hzr : zr = [] := by
        rw [hxr] at hlxz
        exact List.length_eq_zero.mp hlxz.symm
      subst hzr
      show (linspace x0 x1 (k + 2) ++ ([] : List ℚ)).getLastD 0 = _
      rw [List.append_nil, linspace_getLastD]
      simp [List.getLastD_cons]
    · rw [← hxr]
      have hne : xr.zip zr ≠ [] := by
        intro hcon
        rw [hcon] at hzlen
        rw [hxr] at hzlen
        simp at hzlen
      rw [getLastD_append_right _ _ (by
        intro hcon
        have := (interpola_cola_length k (xr.zip zr) x1 z1).1
        rw [hcon, hzlen, hxr] at this
        simp at this)]
      rw [(interpola_cola_last k (xr.zip zr) x1 z1 0 hne).1,
        zip_getLastD xr zr hlxz (by rw [hxr]; simp)]
      show xr.getLastD 0 = (x0 :: x1 :: xr).getLastD 0
      rw [show x0 :: x1 :: xr = [x0, x1] ++ xr from rfl,
        getLastD_append_right xr 0 (by rw [hxr]; simp) [x0, x1]]
  · rw [hres]
    rcases hxr : xr with - | ⟨x2, xr2⟩
    · have hzr : zr = [] := by
        rw [hxr] at hlxz
        exact List.length_eq_zero.mp hlxz.symm
      subst hzr
      show (linspace z0 z1 (k + 2) ++ ([] : List ℚ)).getLastD 0 = _
      rw [List.append_nil, linspace_getLastD]
      simp [List.getLastD_cons]
    · rw [← hxr]
      have hne : xr.zip zr ≠ [] := by
        intro hcon
        rw [hcon] at hzlen
        rw [hxr] at hzlen
        simp at hzlen
      have hzrne : zr ≠ [] := by
        intro hcon
        rw [hcon, hxr] at hlxz
        simp at hlxz
      rw [getLastD_append_right _ _ (by
        intro hcon
        have := (interpola_cola_length k (xr.zip zr) x1 z1).2
        rw [hcon, hzlen, hxr] at this
        simp at this)]
      rw [(interpola_cola_last k (xr.zip zr) x1 z1 0 hne).2,
        zip_getLastD xr zr hlxz (by rw [hxr]; simp)]
      show zr.getLastD 0 = (z0 :: z1 :: zr).getLastD 0
      rw [show z0 :: z1 :: zr = [z0, z1] ++ zr from rfl,
        getLastD_append_right zr 0 hzrne [z0, z1]]
  · rw [hres]
    show List.Chain' (· < ·) (linspace x0 x1 (k + 2) ++ (interpola_cola k x1 z1 (xr.zip zr)).1)
    rw [List.chain'_append]
    refine ⟨linspace_chain x0 x1 k hch1, hcola.1, ?_⟩
    intro u hu y hy
    have hgl : (linspace x0 x1 (k + 2)).getLast? = some x1 := by
      rw [getLast?_of_getLastD _ (linspace_ne_nil x0 x1 k), linspace_getLastD]
    rw [hgl, Option.mem_def] at hu
    cases hu
    exact hcola.2 y (List.mem_of_mem_head? hy)
  · intro hk
    rw [hlen1]
    simp only [List.length_cons]
    have hr2 : xr.length + 1 + 1 - 1 = xr.length + 1 := by omega
    rw [hr2]
    have h2k : 2 ≤ k + 1 := by omega
    have hmul : (xr.length + 1) * 2 ≤ (xr.length + 1) * (k + 1) :=
      Nat.mul_le_mul_left _ h2k
    omega

/-- C9 counterexample: with num_puntos_extra = 0 and a 2-point terrain the
interpolated profile has exactly the input length 2 — not strictly longer. -/
theorem interpolar_perfil_k0_not_longer :
    (interpolar_perfil [0, 1] [0, 1] 0).1.length = 2 ∧
      ¬ ([0, 1] : List ℚ).length < (interpolar_perfil [0, 1] [0, 1] 0).1.length := by
  constructor
  · decide
  · decide

/-- Witness for C9 at a concrete input. -/
theorem interpolar_perfil_spec_witness :
    (interpolar_perfil [0, 1, 2] [0, 5, 0] 1).1.length = (([0, 1, 2] : List ℚ).length - 1) * (1 + 1) + 1 ∧
    (interpolar_perfil [0, 1, 2] [0, 5, 0] 1).2.length = (([0, 1, 2] : List ℚ).length - 1) * (1 + 1) + 1 ∧
    (interpolar_perfil [0, 1, 2] [0, 5, 0] 1).1.headI = ([0, 1, 2] : List ℚ).headI ∧
    (interpolar_perfil [0, 1, 2] [0, 5, 0] 1).2.headI = ([0, 5, 0] : List ℚ).headI ∧
    (interpolar_perfil [0, 1, 2] [0, 5, 0] 1).1.getLastD 0 = ([0, 1, 2] : List ℚ).getLastD 0 ∧
    (interpolar_perfil [0, 1, 2] [0, 5, 0] 1).2.getLastD 0 = ([0, 5, 0] : List ℚ).getLastD 0 ∧
    List.Chain' (· < ·) (interpolar_perfil [0, 1, 2] [0, 5, 0] 1).1 ∧
    (1 ≤ 1 → ([0, 1, 2] : List ℚ).length < (interpolar_perfil [0, 1, 2] [0, 5, 0] 1).1.length) :=
  interpolar_perfil_spec [0, 1, 2] [0, 5, 0] 1 (by decide) (by decide) (by
    refine List.chain'_cons.mpr ⟨by norm_num, ?_⟩
    refine List.chain'_cons.mpr ⟨by norm_num, ?_⟩
    exact List.chain'_singleton 2)

theorem interpolar_perfil_headI (x z : List ℚ) (k : ℕ)
    (hx : 2 ≤ x.length) (hxz : x.length = z.length) :
    (interpolar_perfil x z k).1.headI = x.headI ∧
      (interpolar_perfil x z k).2.headI = z.headI := by
  rcases x with - | ⟨x0, x⟩
  · simp at hx
  rcases x with - | ⟨x1, xr⟩
  · simp at hx
  rcases z with - | ⟨z0, z⟩
  · simp at hxz
  rcases z with - | ⟨z1, zr⟩
  · simp at hxz
  constructor
  · show (linspace x0 x1 (k + 2) ++ _).headI = x0
    rw [headI_append_of_ne_nil _ _ (linspace_ne_nil x0 x1 k)]
    exact linspace_headI x0 x1 k
  · show (linspace z0 z1 (k + 2) ++ _).headI = z0
    rw [headI_append_of_ne_nil _ _ (linspace_ne_nil z0 z1 k)]
    exact linspace_headI z0 z1 k

/-- C10: for every terrain of length at least 2, the profile returned by
generar_perfil_con_bombas_automaticas begins with two samples at the first
terrain distance; both heads equal presion_inicial_m plus the first
elevation when the start clearance exceeds the safety margin, and the second
head additionally jumps by head_bomba when it does not. -/
theorem generar_bombas_automaticas_inicio (log10 sqrtQ : ℚ → ℚ) (x z : List ℚ)
    (densidad viscosidad velocidad diametro rugosidad : ℚ)
    (presion_inicial_m altura_seguridad head_bomba : ℚ) (num_puntos_extra : Option ℕ)
    (hx : 2 ≤ x.length) (hxz : x.length = z.length) :
    (generar_perfil_con_bombas_automaticas log10 sqrtQ x z densidad viscosidad velocidad
        diametro rugosidad presion_inicial_m altura_seguridad head_bomba
        num_puntos_extra).1.take 2 = [x.headI, x.headI] ∧
      (generar_perfil_con_bombas_automaticas log10 sqrtQ x z densidad viscosidad velocidad
        diametro rugosidad presion_inicial_m altura_seguridad head_bomba
        num_puntos_extra).2.1.take 2 =
      [presion_inicial_m + z.headI,
        if presion_inicial_m + z.headI - z.headI ≤ altura_seguridad then
          presion_inicial_m + z.headI + head_bomba
        else presion_inicial_m + z.headI] := by
  unfold generar_perfil_con_bombas_automaticas
  simp only
  set xz := (match num_puntos_extra with
    | none => (x, z)
    | some k => interpolar_perfil x z k) with hxzdef
  have hheads : xz.1.headI = x.headI ∧ xz.2.headI = z.headI := by
    rw [hxzdef]
    cases num_puntos_extra with
    | none => exact ⟨rfl, rfl⟩
    | some k => exact interpolar_perfil_headI x z k hx hxz
  rw [hheads.1, hheads.2]
  by_cases hcond : presion_inicial_m + z.headI - z.headI ≤ altura_seguridad
  · rw [if_pos hcond, if_pos hcond]
    constructor <;> simp
  · rw [if_neg hcond, if_neg hcond]
    constructor <;> simp

/-- Witness for C10 at a concrete input. -/
theorem generar_bombas_automaticas_inicio_witness :
    (generar_perfil_con_bombas_automaticas (fun _ => 0) (fun _ => 0) [0, 1, 2] [0, 0, 0] 1 1 1 1 0
        5 2 10 none).1.take 2 = [([0, 1, 2] : List ℚ).headI, ([0, 1, 2] : List ℚ).headI] ∧
      (generar_perfil_con_bombas_automaticas (fun _ => 0) (fun _ => 0) [0, 1, 2] [0, 0, 0] 1 1 1 1 0
        5 2 10 none).2.1.take 2 =
      [5 + ([0, 0, 0] : List ℚ).headI,
        if 5 + ([0, 0, 0] : List ℚ).headI - ([0, 0, 0] : List ℚ).headI ≤ 2 then
          5 + ([0, 0, 0] : List ℚ).headI + 10
        else 5 + ([0, 0, 0] : List ℚ).headI] :=
  generar_bombas_automaticas_inicio (fun _ => 0) (fun _ => 0) [0, 1, 2] [0, 0, 0] 1 1 1 1 0 5 2 10
    none (by decide) (by decide)

/-! ## List helper lemmas for the pump-insertion pipeline -/

theorem pairLe_fst_le {a b : ℚ × ℚ} (h : pairLe a b) : a.1 ≤ b.1 := by
  rcases h with h | ⟨h, -⟩
  · exact h.le
  · exact h.le

theorem pyIndex_append_cons (p : ℚ) (B : List ℚ) :
    ∀ A : List ℚ, (∀ a ∈ A, a ≠ p) → pyIndex p (A ++ p :: B) = A.length := by
  intro A
  induction A with
  | nil => intro _; simp [pyIndex]
  | cons a A ih =>
      intro hA
      have ha : a ≠ p := hA a (by simp)
      show (if a = p then 0 else pyIndex p (A ++ p :: B) + 1) = (a :: A).length
      rw [if_neg ha, ih (fun b hb => hA b (by simp [hb])), List.length_cons]

theorem pyIndex_lt_length (p : ℚ) : ∀ l : List ℚ, p ∈ l → pyIndex p l < l.length := by
  intro l
  induction l with
  | nil => intro h; simp at h
  | cons a l ih =>
      intro h
      by_cases ha : a = p
      · simp [pyIndex, ha]
      · have hp : p ∈ l := by
          rcases List.mem_cons.mp h with h1 | h1
          · exact absurd h1.symm ha
          · exact h1
        simp only [pyIndex, if_neg ha, List.length_cons]
        exact Nat.succ_lt_succ (ih hp)

theorem pyInsert_append (a : ℚ) (rest : List ℚ) :
    ∀ A : List ℚ, pyInsert A.length a (A ++ rest) = A ++ a :: rest := by
  intro A
  induction A with
  | nil => rfl
  | cons c A ih =>
      show c :: pyInsert A.length a (A ++ rest) = c :: (A ++ a :: rest)
      rw [ih]

theorem pyInsert_le_append (a : ℚ) : ∀ (A rest : List ℚ) (j : ℕ), j ≤ A.length →
    pyInsert j a (A ++ rest) = pyInsert j a A ++ rest := by
  intro A
  induction A with
  | nil =>
      intro rest j hj
      have hj0 : j = 0 := Nat.le_zero.mp hj
      subst hj0
      rfl
  | cons c A ih =>
      intro rest j hj
      cases j with
      | zero => rfl
      | succ j =>
          show c :: pyInsert j a (A ++ rest) = c :: (pyInsert j a A ++ rest)
          rw [ih rest j (by simpa using hj)]

theorem mem_pyInsert (a v : ℚ) : ∀ (n : ℕ) (l : List ℚ),
    a ∈ pyInsert n v l ↔ a = v ∨ a ∈ l := by
  intro n
  induction n with
  | zero => intro l; simp [pyInsert]
  | succ n ih =>
      intro l
      cases l with
      | nil => simp [pyInsert]
      | cons c l =>
          simp only [pyInsert, List.mem_cons, ih l]
          tauto

theorem bumpFrom_zero_map (d : ℚ) : ∀ l : List ℚ, bumpFrom 0 d l = l.map (fun v => v + d) := by
  intro l
  induction l with
  | nil => rfl
  | cons c l ih => simp only [bumpFrom, ih, List.map_cons]

theorem bumpFrom_append (d : ℚ) (rest : List ℚ) :
    ∀ A : List ℚ, bumpFrom A.length d (A ++ rest) = A ++ rest.map (fun v => v + d) := by
  intro A
  induction A with
  | nil => simp [bumpFrom_zero_map]
  | cons c A ih =>
      show c :: bumpFrom A.length d (A ++ rest) = c :: (A ++ rest.map (fun v => v + d))
      rw [ih]

theorem headI_map_snd (l : List (ℚ × ℚ)) (h : l ≠ []) :
    (l.map Prod.snd).headI = (l.headI).2 := by
  cases l with
  | nil => exact absurd rfl h
  | cons a l => rfl

theorem getLastD_map_snd (l : List (ℚ × ℚ)) (h : l ≠ []) :
    (l.map Prod.snd).getLastD 0 = (l.getLastD (0, 0)).2 := by
  rw [List.getLastD_eq_getLast?, List.getLastD_eq_getLast?, List.getLast?_map]
  cases hl : l.getLast? with
  | none => exact absurd (List.getLast?_eq_none_iff.mp hl) h
  | some a => simp

theorem headI_map_add (l : List ℚ) (d : ℚ) (h : l ≠ []) :
    (l.map (fun v => v + d)).headI = l.headI + d := by
  cases l with
  | nil => exact absurd rfl h
  | cons a l => rfl

theorem bump_insert_headI (l : List ℚ) (idx : ℕ) (v d : ℚ) (hl : l ≠ [])
    (hv : idx = 0 → v = l.headI) :
    (bumpFrom (idx + 1) d (pyInsert idx v l)).headI = l.headI := by
  cases idx with
  | zero =>
      show (bumpFrom 1 d (v :: l)).headI = l.headI
      simp only [bumpFrom, List.headI]
      exact hv rfl
  | succ j =>
      cases l with
      | nil => exact absurd rfl hl
      | cons c l => rfl

theorem bump_insert_getLastD (d : ℚ) : ∀ (l : List ℚ) (idx : ℕ) (v : ℚ), idx < l.length →
    (bumpFrom (idx + 1) d (pyInsert idx v l)).getLastD 0 = l.getLastD 0 + d := by
  intro l
  induction l with
  | nil => intro idx v h; simp at h
  | cons c l ih =>
      intro idx v h
      cases idx with
      | zero =>
          show (bumpFrom 1 d (v :: c :: l)).getLastD 0 = (c :: l).getLastD 0 + d
          have h1 : bumpFrom 1 d (v :: c :: l) = v :: List.map (fun q => q + d) (c :: l) := by
            show v :: bumpFrom 0 d (c :: l) = _
            rw [bumpFrom_zero_map]
          rw [h1, List.getLastD_cons,
            getLastD_irrel (List.map (fun q => q + d) (c :: l)) v 0 (by simp),
            getLastD_map_add (c :: l) d (by simp)]
      | succ j =>
          show (bumpFrom (j + 2) d (c :: pyInsert j v l)).getLastD 0 = (c :: l).getLastD 0 + d
          simp only [bumpFrom]
          have hne : bumpFrom (j + 1) d (pyInsert j v l) ≠ [] := by
            intro hcon
            have := congrArg List.length hcon
            rw [bumpFrom_length, pyInsert_length] at this
            simp at this
          have hlne : l ≠ [] := by
            intro hcon
            rw [hcon] at h
            simp at h
          rw [List.getLastD_cons, getLastD_irrel _ c 0 hne, List.getLastD_cons,
            getLastD_irrel l c 0 hlne]
          exact ih j v (by simpa using h)

theorem decompose_two (l : List ℚ) (h : 2 ≤ l.length) :
    l = l.headI :: l.tail.dropLast ++ [l.getLastD 0] := by
  rcases l with - | ⟨a, l⟩
  · simp at h
  rcases hl : l.reverse with - | ⟨b, lr⟩
  · rw [List.reverse_eq_nil_iff] at hl
    rw [hl] at h
    simp at h
  have hl2 : l = lr.reverse ++ [b] := by
    have := congrArg List.reverse hl
    simpa using this
  subst hl2
  show a :: (lr.reverse ++ [b]) =
    a :: (lr.reverse ++ [b]).dropLast ++ [(a :: (lr.reverse ++ [b])).getLastD 0]
  rw [List.dropLast_concat, List.getLastD_cons, getLastD_concat]
  simp

theorem zip_fst_snd : ∀ l : List (ℚ × ℚ), (l.map Prod.fst).zip (l.map Prod.snd) = l := by
  intro l
  induction l with
  | nil => rfl
  | cons a l ih => simp only [List.map_cons, List.zip_cons_cons, ih]

/-! ## numpy.interp clamping lemmas -/

theorem npInterp_lt_head (t x0 y0 : ℚ) (xs ys : List ℚ) (h : t < x0) :
    npInterp t (x0 :: xs) (y0 :: ys) = y0 := by
  simp [npInterp, h]

theorem interpFrom_all_lt (t : ℚ) : ∀ (xs ys : List ℚ) (x0 y0 : ℚ), xs.length = ys.length →
    (∀ a ∈ xs, a < t) → interpFrom t x0 y0 xs ys = (y0 :: ys).getLastD 0 := by
  intro xs
  induction xs with
  | nil =>
      intro ys x0 y0 hlen _
      cases ys with
      | nil => rfl
      | cons c ys => simp at hlen
  | cons x1 xs ih =>
      intro ys x0 y0 hlen hall
      cases ys with
      | nil => simp at hlen
      | cons y1 ys =>
          have hx1 : x1 < t := hall x1 (by simp)
          show (if t < x1 then _ else interpFrom t x1 y1 xs ys) = _
          rw [if_neg (by linarith)]
          rw [ih ys x1 y1 (by simpa using hlen) (fun a ha => hall a (by simp [ha]))]
          exact (getLastD_cons_cons y0 y1 0 ys).symm

theorem npInterp_gt_all (t : ℚ) (xs ys : List ℚ) (hlen : xs.length = ys.length)
    (hne : xs ≠ []) (hall : ∀ a ∈ xs, a < t) : npInterp t xs ys = ys.getLastD 0 := by
  cases xs with
  | nil => exact absurd rfl hne
  | cons x0 xs =>
      cases ys with
      | nil => simp at hlen
      | cons y0 ys =>
          have hx0 : x0 < t := hall x0 (by simp)
          show (if t < x0 then y0 else interpFrom t x0 y0 xs ys) = _
          rw [if_neg (by linarith)]
          exact interpFrom_all_lt t xs ys x0 y0 (by simpa using hlen)
            (fun a ha => hall a (by simp [ha]))

/-! ## Lexicographic sort lemmas -/

theorem insertionSort_sorted_insert (A B : List (ℚ × ℚ)) (e : ℚ × ℚ)
    (hsorted : (A ++ B).Pairwise pairLe)
    (hA : ∀ a ∈ A, a.1 < e.1) (hB : ∀ b ∈ B, e.1 < b.1) :
    List.insertionSort pairLe ((A ++ B) ++ [e]) = A ++ e :: B := by
  apply List.eq_of_perm_of_sorted
    ((List.perm_insertionSort pairLe ((A ++ B) ++ [e])).trans
      ((List.perm_append_singleton e (A ++ B)).trans List.perm_middle.symm))
    (List.sorted_insertionSort pairLe ((A ++ B) ++ [e]))
  have hparts := List.pairwise_append.mp hsorted
  apply List.pairwise_append.mpr
  refine ⟨hparts.1, ?_, ?_⟩
  · apply List.pairwise_cons.mpr
    exact ⟨fun b hb => Or.inl (hB b hb), hparts.2.1⟩
  · intro a ha x hx
    rcases List.mem_cons.mp hx with h1 | h1
    · exact h1 ▸ Or.inl (hA a ha)
    · exact hparts.2.2 a ha x h1

theorem insertionSort_headI_min (l : List (ℚ × ℚ)) (e : ℚ × ℚ) (he : e ∈ l)
    (hmin : ∀ a ∈ l, a ≠ e → e.1 < a.1) :
    (List.insertionSort pairLe l).headI = e := by
  have hperm := List.perm_insertionSort pairLe l
  have hes : e ∈ List.insertionSort pairLe l := hperm.mem_iff.mpr he
  have hsorted : (List.insertionSort pairLe l).Sorted pairLe := List.sorted_insertionSort pairLe l
  cases hs : List.insertionSort pairLe l with
  | nil => rw [hs] at hes; simp at hes
  | cons m t =>
      rw [hs] at hes hsorted
      show m = e
      rcases List.mem_cons.mp hes with h1 | h1
      · exact h1.symm
      · have hme : pairLe m e := (List.sorted_cons.mp hsorted).1 e h1
        have hm : m ∈ l := hperm.mem_iff.mp (by rw [hs]; exact List.mem_cons_self m t)
        by_cases hcase : m = e
        · exact hcase
        · have hlt := hmin m hm hcase
          have hle := pairLe_fst_le hme
          exact absurd hlt (by linarith)

theorem getLastD_concat_pair (l : List (ℚ × ℚ)) (a d : ℚ × ℚ) : (l ++ [a]).getLastD d = a := by
  rw [List.getLastD_eq_getLast?]
  simp

theorem reverse_headI_pair (l : List (ℚ × ℚ)) (h : l ≠ []) :
    l.reverse.headI = l.getLastD (0, 0) := by
  cases hr : l.reverse with
  | nil => exact absurd (List.reverse_eq_nil_iff.mp hr) h
  | cons m t =>
      have hl : l = t.reverse ++ [m] := by
        have := congrArg List.reverse hr
        simpa using this
      rw [hl, getLastD_concat_pair]
      rfl

theorem insertionSort_getLastD_max (l : List (ℚ × ℚ)) (e : ℚ × ℚ) (he : e ∈ l)
    (hmax : ∀ a ∈ l, a ≠ e → a.1 < e.1) :
    (List.insertionSort pairLe l).getLastD (0, 0) = e := by
  have hperm := List.perm_insertionSort pairLe l
  have hes : e ∈ List.insertionSort pairLe l := hperm.mem_iff.mpr he
  have hsorted : (List.insertionSort pairLe l).Pairwise pairLe := List.sorted_insertionSort pairLe l
  have hne : List.insertionSort pairLe l ≠ [] := by
    intro hcon
    rw [hcon] at hes
    simp at hes
  have hrev : (List.insertionSort pairLe l).reverse.Pairwise (fun a b => pairLe b a) :=
    List.pairwise_reverse.mpr hsorted
  rw [← reverse_headI_pair _ hne]
  have hesr : e ∈ (List.insertionSort pairLe l).reverse := by
    rw [List.mem_reverse]
    exact hes
  cases hr : (List.insertionSort pairLe l).reverse with
  | nil => rw [hr] at hesr; simp at hesr
  | cons m t =>
      rw [hr] at hesr hrev
      show m = e
      rcases List.mem_cons.mp hesr with h1 | h1
      · exact h1.symm
      · have hme : pairLe e m := (List.pairwise_cons.mp hrev).1 e h1
        have hm : m ∈ l := by
          have : m ∈ (List.insertionSort pairLe l).reverse := by
            rw [hr]
            exact List.mem_cons_self m t
          rw [List.mem_reverse] at this
          exact hperm.mem_iff.mp this
        by_cases hcase : m = e
        · exact hcase
        · have hlt := hmax m hm hcase
          have hle := pairLe_fst_le hme
          exact absurd hlt (by linarith)

/-! ## Closed forms of the pump-insertion primitives on ordered profiles -/

theorem sin_ajuste_of_mem (xs hs : List ℚ) (p h : ℚ) (hmem : p ∈ xs) :
    agregar_bomba_sin_ajuste xs hs p h =
      (pyInsert (pyIndex p (sortStep xs hs).1) p (sortStep xs hs).1,
       bumpFrom (pyIndex p (sortStep xs hs).1 + 1) h
         (pyInsert (pyIndex p (sortStep xs hs).1)
           (if 0 < pyIndex p (sortStep xs hs).1 then
              npInterp (p - epsShift) (sortStep xs hs).1 (sortStep xs hs).2
            else (sortStep xs hs).2.headI) (sortStep xs hs).2)) := by
  unfold agregar_bomba_sin_ajuste
  rw [if_pos hmem]

theorem sin_ajuste_of_not_mem (xs hs : List ℚ) (p h : ℚ) (hmem : p ∉ xs) :
    agregar_bomba_sin_ajuste xs hs p h =
      (pyInsert (pyIndex p (sortStep (xs ++ [p]) (hs ++ [npInterp p xs hs])).1) p
         (sortStep (xs ++ [p]) (hs ++ [npInterp p xs hs])).1,
       bumpFrom (pyIndex p (sortStep (xs ++ [p]) (hs ++ [npInterp p xs hs])).1 + 1) h
         (pyInsert (pyIndex p (sortStep (xs ++ [p]) (hs ++ [npInterp p xs hs])).1)
           (if 0 < pyIndex p (sortStep (xs ++ [p]) (hs ++ [npInterp p xs hs])).1 then
              npInterp (p - epsShift) (sortStep (xs ++ [p]) (hs ++ [npInterp p xs hs])).1
                (sortStep (xs ++ [p]) (hs ++ [npInterp p xs hs])).2
            else (sortStep (xs ++ [p]) (hs ++ [npInterp p xs hs])).2.headI)
           (sortStep (xs ++ [p]) (hs ++ [npInterp p xs hs])).2)) := by
  unfold agregar_bomba_sin_ajuste
  rw [if_neg hmem]

theorem agregar_bomba_eq_sin_ajuste (xs hs : List ℚ) (p h : ℚ) :
    agregar_bomba xs hs p h =
      ((agregar_bomba_sin_ajuste xs hs p h).1,
       (agregar_bomba_sin_ajuste xs hs p h).2.map
         (fun v => v + (hs.getLastD 0 - (agregar_bomba_sin_ajuste xs hs p h).2.getLastD 0))) :=
  rfl

theorem sortStep_eq_of_sorted (xs hs : List ℚ) (hlen : xs.length = hs.length)
    (h : (xs.zip hs).Pairwise pairLe) : sortStep xs hs = (xs, hs) := by
  unfold sortStep
  rw [List.Sorted.insertionSort_eq h]
  show (List.map Prod.fst (xs.zip hs), List.map Prod.snd (xs.zip hs)) = (xs, hs)
  rw [List.map_fst_zip xs hs (le_of_eq hlen), List.map_snd_zip xs hs (le_of_eq hlen.symm)]

theorem pipeline_closed (p e0 h : ℚ) (Afst Bfst Asnd Bsnd : List ℚ)
    (hAlen : Afst.length = Asnd.length) (hAne : ∀ a ∈ Afst, a ≠ p) :
    (pyInsert (pyIndex p (Afst ++ p :: Bfst)) p (Afst ++ p :: Bfst),
     bumpFrom (pyIndex p (Afst ++ p :: Bfst) + 1) h
       (pyInsert (pyIndex p (Afst ++ p :: Bfst))
         (if 0 < pyIndex p (Afst ++ p :: Bfst) then
            npInterp (p - epsShift) (Afst ++ p :: Bfst) (Asnd ++ e0 :: Bsnd)
          else (Asnd ++ e0 :: Bsnd).headI) (Asnd ++ e0 :: Bsnd))) =
    (Afst ++ p :: p :: Bfst,
     Asnd ++
       (if 0 < Afst.length then npInterp (p - epsShift) (Afst ++ p :: Bfst) (Asnd ++ e0 :: Bsnd)
        else (Asnd ++ e0 :: Bsnd).headI) ::
       (e0 + h) :: Bsnd.map (fun v => v + h)) := by
  have hidx : pyIndex p (Afst ++ p :: Bfst) = Afst.length := pyIndex_append_cons p Bfst Afst hAne
  rw [hidx]
  set v := (if 0 < Afst.length then
      npInterp (p - epsShift) (Afst ++ p :: Bfst) (Asnd ++ e0 :: Bsnd)
    else (Asnd ++ e0 :: Bsnd).headI) with hv
  have h1 : pyInsert Afst.length p (Afst ++ p :: Bfst) = Afst ++ p :: p :: Bfst :=
    pyInsert_append p (p :: Bfst) Afst
  have h2 : pyInsert Afst.length v (Asnd ++ e0 :: Bsnd) = Asnd ++ v :: e0 :: Bsnd := by
    rw [hAlen]
    exact pyInsert_append v (e0 :: Bsnd) Asnd
  have h3 : bumpFrom (Afst.length + 1) h (Asnd ++ v :: e0 :: Bsnd) =
      Asnd ++ v :: (e0 + h) :: Bsnd.map (fun q => q + h) := by
    have hs1 : Asnd ++ v :: e0 :: Bsnd = (Asnd ++ [v]) ++ e0 :: Bsnd := by
      rw [List.append_assoc]
      rfl
    have hs2 : Afst.length + 1 = (Asnd ++ [v]).length := by
      rw [List.length_append, hAlen]
      rfl
    rw [hs1, hs2, bumpFrom_append]
    rw [List.append_assoc]
    rfl
  rw [h1, h2, h3]

theorem sortStep_append_insert (xs hs : List ℚ) (A B : List (ℚ × ℚ)) (p yp : ℚ)
    (hlen : xs.length = hs.length)
    (hzip : xs.zip hs = A ++ B)
    (hA : ∀ a ∈ A, a.1 < p) (hB : ∀ b ∈ B, p < b.1)
    (hsorted : List.Pairwise pairLe (xs.zip hs)) :
    sortStep (xs ++ [p]) (hs ++ [yp]) =
      (A.map Prod.fst ++ p :: B.map Prod.fst, A.map Prod.snd ++ yp :: B.map Prod.snd) := by
  unfold sortStep
  have hz : (xs ++ [p]).zip (hs ++ [yp]) = (A ++ B) ++ [(p, yp)] := by
    rw [List.zip_append hlen, hzip]
    simp
  rw [hz, insertionSort_sorted_insert A B (p, yp) (hzip ▸ hsorted) hA hB]
  show (List.map Prod.fst (A ++ (p, yp) :: B), List.map Prod.snd (A ++ (p, yp) :: B)) = _
  rw [List.map_append, List.map_append, List.map_cons, List.map_cons]

theorem sin_ajuste_closed_present (xs hs : List ℚ) (A B : List (ℚ × ℚ)) (p h e0 : ℚ)
    (hlen : xs.length = hs.length)
    (hzip : xs.zip hs = A ++ (p, e0) :: B)
    (hA : ∀ a ∈ A, a.1 < p)
    (hsorted : List.Pairwise pairLe (xs.zip hs)) :
    agregar_bomba_sin_ajuste xs hs p h =
      (A.map Prod.fst ++ p :: p :: B.map Prod.fst,
       A.map Prod.snd ++
         (if 0 < A.length then npInterp (p - epsShift) xs hs else hs.headI) ::
         (e0 + h) :: (B.map Prod.snd).map (fun v => v + h)) := by
  have hxs : xs = A.map Prod.fst ++ p :: B.map Prod.fst := by
    have h1 := congrArg (List.map Prod.fst) hzip
    rw [List.map_fst_zip xs hs (le_of_eq hlen)] at h1
    simpa using h1
  have hhs : hs = A.map Prod.snd ++ e0 :: B.map Prod.snd := by
    have h1 := congrArg (List.map Prod.snd) hzip
    rw [List.map_snd_zip xs hs (le_of_eq hlen.symm)] at h1
    simpa using h1
  have hmem : p ∈ xs := by rw [hxs]; simp
  rw [sin_ajuste_of_mem xs hs p h hmem, sortStep_eq_of_sorted xs hs hlen hsorted]
  have hAne : ∀ a ∈ A.map Prod.fst, a ≠ p := by
    intro a ha
    obtain ⟨a2, ha2, rfl⟩ := List.mem_map.mp ha
    exact ne_of_lt (hA a2 ha2)
  have hmain := pipeline_closed p e0 h (A.map Prod.fst) (B.map Prod.fst) (A.map Prod.snd)
    (B.map Prod.snd) (by simp) hAne
  rw [hxs, hhs]
  simpa only [List.length_map] using hmain

theorem sin_ajuste_closed_absent (xs hs : List ℚ) (A B : List (ℚ × ℚ)) (p h : ℚ)
    (hlen : xs.length = hs.length)
    (hzip : xs.zip hs = A ++ B)
    (hA : ∀ a ∈ A, a.1 < p) (hB : ∀ b ∈ B, p < b.1)
    (hsorted : List.Pairwise pairLe (xs.zip hs)) :
    agregar_bomba_sin_ajuste xs hs p h =
      (A.map Prod.fst ++ p :: p :: B.map Prod.fst,
       A.map Prod.snd ++
         (if 0 < A.length then
            npInterp (p - epsShift) (A.map Prod.fst ++ p :: B.map Prod.fst)
              (A.map Prod.snd ++ npInterp p xs hs :: B.map Prod.snd)
          else (A.map Prod.snd ++ npInterp p xs hs :: B.map Prod.snd).headI) ::
         (npInterp p xs hs + h) :: (B.map Prod.snd).map (fun v => v + h)) := by
  have hxs : xs = A.map Prod.fst ++ B.map Prod.fst := by
    have h1 := congrArg (List.map Prod.fst) hzip
    rw [List.map_fst_zip xs hs (le_of_eq hlen)] at h1
    simpa using h1
  have hmem : p ∉ xs := by
    rw [hxs]
    intro hcon
    rcases List.mem_append.mp hcon with h1 | h1
    · obtain ⟨a2, ha2, heq⟩ := List.mem_map.mp h1
      exact absurd heq (ne_of_lt (hA a2 ha2))
    · obtain ⟨b2, hb2, heq⟩ := List.mem_map.mp h1
      exact absurd heq (ne_of_gt (hB b2 hb2))
  rw [sin_ajuste_of_not_mem xs hs p h hmem,
    sortStep_append_insert xs hs A B p (npInterp p xs hs) hlen hzip hA hB hsorted]
  have hAne : ∀ a ∈ A.map Prod.fst, a ≠ p := by
    intro a ha
    obtain ⟨a2, ha2, rfl⟩ := List.mem_map.mp ha
    exact ne_of_lt (hA a2 ha2)
  have hmain := pipeline_closed p (npInterp p xs hs) h (A.map Prod.fst) (B.map Prod.fst)
    (A.map Prod.snd) (B.map Prod.snd) (by simp) hAne
  simpa only [List.length_map] using hmain

theorem sin_ajuste_closed (xs hs : List ℚ) (A M B : List (ℚ × ℚ)) (p h : ℚ)
    (hlen : xs.length = hs.length)
    (hzip : xs.zip hs = A ++ M ++ B)
    (hA : ∀ a ∈ A, a.1 < p) (hM : ∀ m ∈ M, m.1 = p) (hB : ∀ b ∈ B, p < b.1)
    (hsorted : List.Pairwise pairLe (xs.zip hs)) :
    agregar_bomba_sin_ajuste xs hs p h =
      (A.map Prod.fst ++ p :: p :: (M.tail ++ B).map Prod.fst,
       A.map Prod.snd ++
         (if 0 < A.length then
            npInterp (p - epsShift) (A.map Prod.fst ++ p :: (M.tail ++ B).map Prod.fst)
              (A.map Prod.snd ++
                (if M = [] then npInterp p xs hs else (M.headI).2) ::
                (M.tail ++ B).map Prod.snd)
          else (A.map Prod.snd ++
                (if M = [] then npInterp p xs hs else (M.headI).2) ::
                (M.tail ++ B).map Prod.snd).headI) ::
         ((if M = [] then npInterp p xs hs else (M.headI).2) + h) ::
         ((M.tail ++ B).map Prod.snd).map (fun v => v + h)) := by
  cases M with
  | nil =>
      have hzip2 : xs.zip hs = A ++ B := by rw [hzip]; simp
      exact sin_ajuste_closed_absent xs hs A B p h hlen hzip2 hA hB hsorted
  | cons m M2 =>
      obtain ⟨m1, m2⟩ := m
      have hm1 : p = m1 := (hM (m1, m2) (by simp)).symm
      subst hm1
      have hzip2 : xs.zip hs = A ++ (p, m2) :: (M2 ++ B) := by rw [hzip]; simp
      have hxs : xs = A.map Prod.fst ++ p :: (M2 ++ B).map Prod.fst := by
        have h1 := congrArg (List.map Prod.fst) hzip2
        rw [List.map_fst_zip xs hs (le_of_eq hlen)] at h1
        simpa using h1
      have hhs2 : hs = A.map Prod.snd ++ m2 :: (M2 ++ B).map Prod.snd := by
        have h1 := congrArg (List.map Prod.snd) hzip2
        rw [List.map_snd_zip xs hs (le_of_eq hlen.symm)] at h1
        simpa using h1
      rw [sin_ajuste_closed_present xs hs A (M2 ++ B) p h m2 hlen hzip2 hA hsorted]
      show (A.map Prod.fst ++ p :: p :: (M2 ++ B).map Prod.fst,
        A.map Prod.snd ++
          (if 0 < A.length then npInterp (p - epsShift) xs hs else hs.headI) ::
          (m2 + h) :: ((M2 ++ B).map Prod.snd).map (fun v => v + h)) =
        (A.map Prod.fst ++ p :: p :: (M2 ++ B).map Prod.fst,
         A.map Prod.snd ++
           (if 0 < A.length then
              npInterp (p - epsShift) (A.map Prod.fst ++ p :: (M2 ++ B).map Prod.fst)
                (A.map Prod.snd ++ m2 :: (M2 ++ B).map Prod.snd)
            else (A.map Prod.snd ++ m2 :: (M2 ++ B).map Prod.snd).headI) ::
           (m2 + h) :: ((M2 ++ B).map Prod.snd).map (fun v => v + h))
      rw [← hxs, ← hhs2]

theorem last_of_shape (Asnd T : List ℚ) (pre e0 h L : ℚ)
    (hlast : (Asnd ++ e0 :: T).getLastD 0 = L) :
    (Asnd ++ pre :: (e0 + h) :: T.map (fun v => v + h)).getLastD 0 = L + h := by
  cases T with
  | nil =>
      rw [getLastD_append_right _ _ (by simp), List.getLastD_cons, List.getLastD_cons]
      rw [getLastD_append_right _ _ (by simp), List.getLastD_cons] at hlast
      simp only [List.map_nil]
      simp only [List.getLastD] at hlast ⊢
      rw [hlast]
  | cons t T2 =>
      rw [getLastD_append_right _ _ (by simp), List.getLastD_cons,
        getLastD_irrel _ _ 0 (by simp), List.getLastD_cons, getLastD_irrel _ _ 0 (by simp),
        getLastD_map_add _ _ (by simp)]
      rw [getLastD_append_right _ _ (by simp), List.getLastD_cons,
        getLastD_irrel _ _ 0 (by simp)] at hlast
      rw [hlast]

theorem sin_ajuste_last (xs hs : List ℚ) (A M B : List (ℚ × ℚ)) (p h : ℚ)
    (hlen : xs.length = hs.length)
    (hzip : xs.zip hs = A ++ M ++ B)
    (hA : ∀ a ∈ A, a.1 < p) (hM : ∀ m ∈ M, m.1 = p) (hB : ∀ b ∈ B, p < b.1)
    (hsorted : List.Pairwise pairLe (xs.zip hs))
    (hxne : xs ≠ []) :
    (agregar_bomba_sin_ajuste xs hs p h).2.getLastD 0 = hs.getLastD 0 + h := by
  have hhs : hs = A.map Prod.snd ++ (M.map Prod.snd ++ B.map Prod.snd) := by
    have h1 := congrArg (List.map Prod.snd) hzip
    rw [List.map_snd_zip xs hs (le_of_eq hlen.symm)] at h1
    simpa using h1
  rw [sin_ajuste_closed xs hs A M B p h hlen hzip hA hM hB hsorted]
  apply last_of_shape
  cases M with
  | cons m M2 =>
      show (A.map Prod.snd ++ m.2 :: (M2 ++ B).map Prod.snd).getLastD 0 = hs.getLastD 0
      rw [hhs]
      simp only [List.map_cons, List.map_append]
      rfl
  | nil =>
      cases B with
      | cons b B2 =>
          show (A.map Prod.snd ++ npInterp p xs hs :: ((b :: B2).map Prod.snd)).getLastD 0 =
            hs.getLastD 0
          rw [hhs]
          simp only [List.map_cons, List.map_nil, List.nil_append]
          rw [getLastD_append_right _ _ (by simp), getLastD_cons_cons,
            getLastD_append_right _ _ (by simp)]
      | nil =>
          show (A.map Prod.snd ++ npInterp p xs hs :: (([] : List (ℚ × ℚ)).map Prod.snd)).getLastD 0 =
            hs.getLastD 0
          have hxsA : xs = A.map Prod.fst := by
            have h1 := congrArg (List.map Prod.fst) hzip
            rw [List.map_fst_zip xs hs (le_of_eq hlen)] at h1
            simpa using h1
          have hclamp : npInterp p xs hs = hs.getLastD 0 := by
            apply npInterp_gt_all p xs hs hlen hxne
            intro a ha
            rw [hxsA] at ha
            obtain ⟨a2, ha2, rfl⟩ := List.mem_map.mp ha
            exact hA a2 ha2
          rw [hclamp]
          show (A.map Prod.snd ++ [hs.getLastD 0]).getLastD 0 = hs.getLastD 0
          exact getLastD_concat _ _ _

theorem agregar_closed (xs hs : List ℚ) (A M B : List (ℚ × ℚ)) (p h : ℚ)
    (hlen : xs.length = hs.length)
    (hzip : xs.zip hs = A ++ M ++ B)
    (hA : ∀ a ∈ A, a.1 < p) (hM : ∀ m ∈ M, m.1 = p) (hB : ∀ b ∈ B, p < b.1)
    (hsorted : List.Pairwise pairLe (xs.zip hs))
    (hxne : xs ≠ []) :
    agregar_bomba xs hs p h =
      (A.map Prod.fst ++ p :: p :: (M.tail ++ B).map Prod.fst,
       (A.map Prod.snd).map (fun v => v - h) ++
         ((if 0 < A.length then
             npInterp (p - epsShift) (A.map Prod.fst ++ p :: (M.tail ++ B).map Prod.fst)
               (A.map Prod.snd ++ (if M = [] then npInterp p xs hs else (M.headI).2) ::
                 (M.tail ++ B).map Prod.snd)
           else (A.map Prod.snd ++ (if M = [] then npInterp p xs hs else (M.headI).2) ::
                 (M.tail ++ B).map Prod.snd).headI) - h) ::
         (if M = [] then npInterp p xs hs else (M.headI).2) ::
         (M.tail ++ B).map Prod.snd) := by
  rw [agregar_bomba_eq_sin_ajuste,
    sin_ajuste_last xs hs A M B p h hlen hzip hA hM hB hsorted hxne]
  have hdelta : hs.getLastD 0 - (hs.getLastD 0 + h) = -h := by ring
  rw [hdelta, sin_ajuste_closed xs hs A M B p h hlen hzip hA hM hB hsorted]
  have hfun : (fun v : ℚ => v + (-h)) = fun v => v - h := by
    funext v
    ring
  rw [hfun]
  have hcomp : ((fun v : ℚ => v - h) ∘ (fun v => v + h) ∘ (Prod.snd : ℚ × ℚ → ℚ)) =
      (Prod.snd : ℚ × ℚ → ℚ) := by
    funext e
    simp
  simp only [List.map_append, List.map_cons, List.map_map, hcomp, add_sub_cancel_right]

theorem getD_shape (u v : ℚ) (T : List ℚ) : ∀ (L : List ℚ) (n : ℕ), L.length = n →
    (L ++ u :: v :: T).getD n 0 = u ∧ (L ++ u :: v :: T).getD (n + 1) 0 = v := by
  intro L
  induction L with
  | nil =>
      intro n hn
      rw [← hn]
      exact ⟨rfl, rfl⟩
  | cons c L ih =>
      intro n hn
      rw [← hn]
      simp only [List.length_cons, List.cons_append, List.getD_cons_succ]
      exact ih L.length rfl

/-- C3 (amended): on an ordered profile split around the pump position p
(A the samples strictly before p, M the samples exactly at p, B the samples
strictly after p), after agregar_bomba(xs, heads, p, h) the head immediately
after the jump minus the head immediately before it equals h plus the
difference between the profile value at p and its interpolation at
p - 1e-6 — a quantity that vanishes only for locally flat profiles and can
exceed 1e-9 — and every sample at a position after p keeps exactly its
pre-insertion head: the jump h and the renormalization constant -h cancel
downstream, while the samples before p are shifted by -h. -/
theorem agregar_bomba_jump_shift (xs hs : List ℚ) (A M B : List (ℚ × ℚ)) (p h : ℚ)
    (hlen : xs.length = hs.length)
    (hzip : xs.zip hs = A ++ M ++ B)
    (hA : ∀ a ∈ A, a.1 < p) (hM : ∀ m ∈ M, m.1 = p) (hB : ∀ b ∈ B, p < b.1)
    (hsorted : List.Pairwise pairLe (xs.zip hs))
    (hxne : xs ≠ []) :
    agregar_bomba xs hs p h =
      (A.map Prod.fst ++ p :: p :: (M.tail ++ B).map Prod.fst,
       (A.map Prod.snd).map (fun v => v - h) ++
         ((if 0 < A.length then
             npInterp (p - epsShift) (A.map Prod.fst ++ p :: (M.tail ++ B).map Prod.fst)
               (A.map Prod.snd ++ (if M = [] then npInterp p xs hs else (M.headI).2) ::
                 (M.tail ++ B).map Prod.snd)
           else (A.map Prod.snd ++ (if M = [] then npInterp p xs hs else (M.headI).2) ::
                 (M.tail ++ B).map Prod.snd).headI) - h) ::
         (if M = [] then npInterp p xs hs else (M.headI).2) ::
         (M.tail ++ B).map Prod.snd) ∧
    (agregar_bomba xs hs p h).2.getD (A.length + 1) 0 -
        (agregar_bomba xs hs p h).2.getD A.length 0 =
      h + ((if M = [] then npInterp p xs hs else (M.headI).2) -
        (if 0 < A.length then
           npInterp (p - epsShift) (A.map Prod.fst ++ p :: (M.tail ++ B).map Prod.fst)
             (A.map Prod.snd ++ (if M = [] then npInterp p xs hs else (M.headI).2) ::
               (M.tail ++ B).map Prod.snd)
         else (A.map Prod.snd ++ (if M = [] then npInterp p xs hs else (M.headI).2) ::
               (M.tail ++ B).map Prod.snd).headI)) := by
  have hres := agregar_closed xs hs A M B p h hlen hzip hA hM hB hsorted hxne
  refine ⟨hres, ?_⟩
  rw [hres]
  have hshape := getD_shape
    ((if 0 < A.length then
        npInterp (p - epsShift) (A.map Prod.fst ++ p :: (M.tail ++ B).map Prod.fst)
          (A.map Prod.snd ++ (if M = [] then npInterp p xs hs else (M.headI).2) ::
            (M.tail ++ B).map Prod.snd)
      else (A.map Prod.snd ++ (if M = [] then npInterp p xs hs else (M.headI).2) ::
            (M.tail ++ B).map Prod.snd).headI) - h)
    (if M = [] then npInterp p xs hs else (M.headI).2)
    ((M.tail ++ B).map Prod.snd)
    ((A.map Prod.snd).map (fun v => v - h)) A.length (by simp)
  show (_ ++ _ :: _ :: _).getD (A.length + 1) 0 - (_ ++ _ :: _ :: _).getD A.length 0 = _
  rw [hshape.1, hshape.2]
  ring

/-- Witness for C3 at a concrete ordered two-point profile with a pump
inserted at an interior position. -/
theorem agregar_bomba_jump_shift_witness :
    (agregar_bomba [0, 2] [10, 0] 1 3).2.getD (([((0 : ℚ), (10 : ℚ))] : List (ℚ × ℚ)).length + 1) 0 -
        (agregar_bomba [0, 2] [10, 0] 1 3).2.getD ([((0 : ℚ), (10 : ℚ))] : List (ℚ × ℚ)).length 0 =
      3 + ((if ([] : List (ℚ × ℚ)) = [] then npInterp 1 [0, 2] [10, 0]
            else ((([] : List (ℚ × ℚ))).headI).2) -
        (if 0 < ([((0 : ℚ), (10 : ℚ))] : List (ℚ × ℚ)).length then
           npInterp (1 - epsShift)
             (([((0 : ℚ), (10 : ℚ))] : List (ℚ × ℚ)).map Prod.fst ++ 1 ::
               ((([] : List (ℚ × ℚ))).tail ++ [((2 : ℚ), (0 : ℚ))]).map Prod.fst)
             (([((0 : ℚ), (10 : ℚ))] : List (ℚ × ℚ)).map Prod.snd ++
               (if ([] : List (ℚ × ℚ)) = [] then npInterp 1 [0, 2] [10, 0]
                else ((([] : List (ℚ × ℚ))).headI).2) ::
               ((([] : List (ℚ × ℚ))).tail ++ [((2 : ℚ), (0 : ℚ))]).map Prod.snd)
         else (([((0 : ℚ), (10 : ℚ))] : List (ℚ × ℚ)).map Prod.snd ++
               (if ([] : List (ℚ × ℚ)) = [] then npInterp 1 [0, 2] [10, 0]
                else ((([] : List (ℚ × ℚ))).headI).2) ::
               ((([] : List (ℚ × ℚ))).tail ++ [((2 : ℚ), (0 : ℚ))]).map Prod.snd).headI)) :=
  (agregar_bomba_jump_shift [0, 2] [10, 0] [(0, 10)] [] [(2, 0)] 1 3 (by decide) (by decide)
    (by decide) (by decide) (by decide) (by decide) (by decide)).2

/-- C4 (amended): the roles of the two paths are the opposite of the claim.
agregar_bomba — the insertion used by the boundary-constrained generator
(generar_perfil_presion_con_bomba_desconocida) for its known-head pumps —
renormalizes by a constant additive offset after each insertion so that the
final sample's head is unchanged: the samples at or before the pump position
are shifted by -h and the downstream samples keep their pre-insertion heads.
The inline insertion of the backward known-final-head path
(agregar_bomba_sin_ajuste, used by generar_perfil_presion) applies no
per-insertion renormalization: samples at or before the pump position keep
their previous heads and the gain h propagates only downstream, the final
sample growing by exactly h; only one global shift after all insertions
restores the far boundary. -/
theorem agregar_bomba_renormalization (xs hs : List ℚ) (A M B : List (ℚ × ℚ)) (p h : ℚ)
    (hlen : xs.length = hs.length)
    (hzip : xs.zip hs = A ++ M ++ B)
    (hA : ∀ a ∈ A, a.1 < p) (hM : ∀ m ∈ M, m.1 = p) (hB : ∀ b ∈ B, p < b.1)
    (hsorted : List.Pairwise pairLe (xs.zip hs))
    (hxne : xs ≠ []) :
    (agregar_bomba xs hs p h).2.getLastD 0 = hs.getLastD 0 ∧
    (∃ u : ℚ, (agregar_bomba xs hs p h).2 =
        (A.map Prod.snd).map (fun v => v - h) ++ u ::
          (if M = [] then npInterp p xs hs else (M.headI).2) ::
          (M.tail ++ B).map Prod.snd) ∧
    (agregar_bomba_sin_ajuste xs hs p h).2.getLastD 0 = hs.getLastD 0 + h ∧
    (∃ w : ℚ, (agregar_bomba_sin_ajuste xs hs p h).2 =
        A.map Prod.snd ++ w ::
          ((if M = [] then npInterp p xs hs else (M.headI).2) + h) ::
          ((M.tail ++ B).map Prod.snd).map (fun v => v + h)) := by
  have hsin := sin_ajuste_closed xs hs A M B p h hlen hzip hA hM hB hsorted
  have hne : (agregar_bomba_sin_ajuste xs hs p h).2 ≠ [] := by
    rw [hsin]
    simp
  refine ⟨?_, ?_, ?_, ?_⟩
  · rw [agregar_bomba_eq_sin_ajuste]
    exact last_after_shift _ _ hne
  · exact ⟨_, congrArg Prod.snd
      (agregar_closed xs hs A M B p h hlen hzip hA hM hB hsorted hxne)⟩
  · exact sin_ajuste_last xs hs A M B p h hlen hzip hA hM hB hsorted hxne
  · exact ⟨_, congrArg Prod.snd hsin⟩

/-- Witness for C4 at a concrete two-point sloped profile with a pump
inserted at an interior position: the renormalizing insertion keeps the last head at
0, the inline insertion raises it to 3. -/
theorem agregar_bomba_renormalization_witness :
    (agregar_bomba [0, 2] [10, 0] 1 3).2.getLastD 0 = 0 ∧
    (agregar_bomba_sin_ajuste [0, 2] [10, 0] 1 3).2.getLastD 0 = 3 := by
  have h := agregar_bomba_renormalization [0, 2] [10, 0] [(0, 10)] [] [(2, 0)] 1 3
    (by decide) (by decide) (by decide) (by decide) (by decide) (by decide) (by decide)
  refine ⟨?_, ?_⟩
  · rw [h.1]
    decide
  · rw [h.2.2.1]
    decide

/-- C4 counterexample: the boundary-constrained generator's known-pump
insertion DOES renormalize — on the flat profile it shifts the samples at and
before the pump position from 10 down to 5 (preserving the last sample), so
the first head of the generated profile drops from 10 to 5 when a known pump
of head 5 is added — while the backward path's inline insertion does NOT
preserve the last sample (it becomes 15, not 10). -/
theorem agregar_bomba_renorm_counterexample :
    (generar_perfil_presion_con_bomba_desconocida (fun _ => 0) (fun _ => 0) [0, 1, 2] [0, 0, 0]
        1 1 1 1 0 7 10 [⟨1, some 5⟩]).2.1 = [5, 5, 10, 10] ∧
    (generar_perfil_presion_con_bomba_desconocida (fun _ => 0) (fun _ => 0) [0, 1, 2] [0, 0, 0]
        1 1 1 1 0 7 10 []).2.1 = [10, 10, 10] ∧
    (agregar_bomba [0, 1, 2] [10, 10, 10] 1 5).2 = [5, 5, 10, 10] ∧
    (agregar_bomba_sin_ajuste [0, 1, 2] [10, 10, 10] 1 5).2 = [10, 10, 15, 15] := by
  refine ⟨by decide, by decide, by decide, by decide⟩

/-- C3 counterexample: on the sloped profile (0,10)-(2,0), inserting a pump
of head 3 at position 1 produces a jump of 2.999995, which differs from 3 by
5e-6, far beyond the claimed 1e-9 tolerance. -/
theorem agregar_bomba_jump_counterexample :
    (agregar_bomba [0, 2] [10, 0] 1 3).1 = [0, 1, 1, 2] ∧
    (agregar_bomba [0, 2] [10, 0] 1 3).2.getD 2 0 -
        (agregar_bomba [0, 2] [10, 0] 1 3).2.getD 1 0 = 599999 / 200000 ∧
    ¬ |(599999 : ℚ) / 200000 - 3| ≤ 1 / 1000000000 := by
  refine ⟨by decide, by decide, ?_⟩
  rw [show (599999 : ℚ) / 200000 - 3 = -(1 / 200000) by norm_num, abs_neg,
    abs_of_pos (by norm_num : (0 : ℚ) < 1 / 200000)]
  norm_num

/-- C8 (amended): when the pump position p is not already present in xs,
agregar_bomba appends the interpolated (position, head) pair and re-sorts the
combined sequence lexicographically by (position, head): the sorted sequence
is a permutation of the combined input ordered by pairLe, so ties between
samples at equal positions are broken by ascending head value — not by the
samples' original order. The last conjunct records that the insertion
pipeline of agregar_bomba (shared with the inline backward-path insertion)
is built from exactly this sorted sequence. -/
theorem agregar_bomba_sort (xs hs : List ℚ) (p h : ℚ) (hmem : p ∉ xs) :
    List.Pairwise pairLe
      ((sortStep (xs ++ [p]) (hs ++ [npInterp p xs hs])).1.zip
        (sortStep (xs ++ [p]) (hs ++ [npInterp p xs hs])).2) ∧
    ((sortStep (xs ++ [p]) (hs ++ [npInterp p xs hs])).1.zip
        (sortStep (xs ++ [p]) (hs ++ [npInterp p xs hs])).2).Perm
      ((xs ++ [p]).zip (hs ++ [npInterp p xs hs])) ∧
    agregar_bomba_sin_ajuste xs hs p h =
      (pyInsert (pyIndex p (sortStep (xs ++ [p]) (hs ++ [npInterp p xs hs])).1) p
         (sortStep (xs ++ [p]) (hs ++ [npInterp p xs hs])).1,
       bumpFrom (pyIndex p (sortStep (xs ++ [p]) (hs ++ [npInterp p xs hs])).1 + 1) h
         (pyInsert (pyIndex p (sortStep (xs ++ [p]) (hs ++ [npInterp p xs hs])).1)
           (if 0 < pyIndex p (sortStep (xs ++ [p]) (hs ++ [npInterp p xs hs])).1 then
              npInterp (p - epsShift) (sortStep (xs ++ [p]) (hs ++ [npInterp p xs hs])).1
                (sortStep (xs ++ [p]) (hs ++ [npInterp p xs hs])).2
            else (sortStep (xs ++ [p]) (hs ++ [npInterp p xs hs])).2.headI)
           (sortStep (xs ++ [p]) (hs ++ [npInterp p xs hs])).2)) := by
  refine ⟨?_, ?_, sin_ajuste_of_not_mem xs hs p h hmem⟩
  · show List.Pairwise pairLe
      (((List.insertionSort pairLe ((xs ++ [p]).zip (hs ++ [npInterp p xs hs]))).map
        Prod.fst).zip
       ((List.insertionSort pairLe ((xs ++ [p]).zip (hs ++ [npInterp p xs hs]))).map
        Prod.snd))
    rw [zip_fst_snd]
    exact List.sorted_insertionSort pairLe _
  · show (((List.insertionSort pairLe ((xs ++ [p]).zip (hs ++ [npInterp p xs hs]))).map
        Prod.fst).zip
       ((List.insertionSort pairLe ((xs ++ [p]).zip (hs ++ [npInterp p xs hs]))).map
        Prod.snd)).Perm ((xs ++ [p]).zip (hs ++ [npInterp p xs hs]))
    rw [zip_fst_snd]
    exact List.perm_insertionSort pairLe _

/-- Witness for C8 at a concrete two-point profile with a pump appended at an
interior position not present in xs. -/
theorem agregar_bomba_sort_witness :
    List.Pairwise pairLe
      ((sortStep ([0, 2] ++ [1]) ([10, 0] ++ [npInterp 1 [0, 2] [10, 0]])).1.zip
        (sortStep ([0, 2] ++ [1]) ([10, 0] ++ [npInterp 1 [0, 2] [10, 0]])).2) ∧
    ((sortStep ([0, 2] ++ [1]) ([10, 0] ++ [npInterp 1 [0, 2] [10, 0]])).1.zip
        (sortStep ([0, 2] ++ [1]) ([10, 0] ++ [npInterp 1 [0, 2] [10, 0]])).2).Perm
      ((([0, 2] : List ℚ) ++ [1]).zip (([10, 0] : List ℚ) ++ [npInterp 1 [0, 2] [10, 0]])) :=
  ⟨(agregar_bomba_sort [0, 2] [10, 0] 1 3 (by decide)).1,
   (agregar_bomba_sort [0, 2] [10, 0] 1 3 (by decide)).2.1⟩

/-- C8 counterexample: on a profile with two samples at the duplicated
position 1 whose heads 9, 5 are in descending order, the lexicographic sort
of the source puts the head-5 sample before the head-9 sample, while the
claimed stable position-only sort keeps the original order; inserting a
zero-head pump at the fresh position 1/2 accordingly yields a head list with
5 before 9. -/
theorem agregar_bomba_sort_counterexample :
    sortStep [0, 1, 1, 2] [10, 9, 5, 4] ≠ sortStepClaimed [0, 1, 1, 2] [10, 9, 5, 4] ∧
    sortStep [0, 1, 1, 2] [10, 9, 5, 4] = ([0, 1, 1, 2], [10, 5, 9, 4]) ∧
    sortStepClaimed [0, 1, 1, 2] [10, 9, 5, 4] = ([0, 1, 1, 2], [10, 9, 5, 4]) ∧
    (agregar_bomba [0, 1, 1, 2] [10, 9, 5, 4] (1 / 2) 0).2 =
      [10, 9500001 / 1000000, 19 / 2, 5, 9, 4] := by
  refine ⟨by decide, by decide, by decide, by decide⟩

/-! ## Boundary behavior of agregar_bomba on anchored profiles -/

theorem headI_map_fst (l : List (ℚ × ℚ)) (h : l ≠ []) :
    (l.map Prod.fst).headI = (l.headI).1 := by
  cases l with
  | nil => exact absurd rfl h
  | cons a l => rfl

theorem getLastD_map_fst (l : List (ℚ × ℚ)) (h : l ≠ []) :
    (l.map Prod.fst).getLastD 0 = (l.getLastD (0, 0)).1 := by
  rw [List.getLastD_eq_getLast?, List.getLastD_eq_getLast?, List.getLast?_map]
  cases hl : l.getLast? with
  | none => exact absurd (List.getLast?_eq_none_iff.mp hl) h
  | some a => simp

theorem pyIndex_zero_headI (p : ℚ) (l : List ℚ) (h0 : pyIndex p l = 0) (hne : l ≠ []) :
    l.headI = p := by
  cases l with
  | nil => exact absurd rfl hne
  | cons a l =>
      by_cases ha : a = p
      · exact ha
      · rw [show pyIndex p (a :: l) = pyIndex p l + 1 from if_neg ha] at h0
        simp at h0

theorem pyInsert_headI (l : List ℚ) (idx : ℕ) (v : ℚ) (hl : l ≠ [])
    (hv : idx = 0 → v = l.headI) :
    (pyInsert idx v l).headI = l.headI := by
  cases idx with
  | zero =>
      show (v :: l).headI = l.headI
      exact hv rfl
  | succ j =>
      cases l with
      | nil => exact absurd rfl hl
      | cons c l => rfl

theorem pyInsert_getLastD (v : ℚ) : ∀ (l : List ℚ) (idx : ℕ), idx < l.length →
    (pyInsert idx v l).getLastD 0 = l.getLastD 0 := by
  intro l
  induction l with
  | nil => intro idx h; simp at h
  | cons c l ih =>
      intro idx h
      cases idx with
      | zero =>
          show (v :: c :: l).getLastD 0 = (c :: l).getLastD 0
          rw [List.getLastD_cons]
          exact getLastD_irrel _ _ _ (by simp)
      | succ j =>
          cases l with
          | nil => simp at h
          | cons b l =>
              show (c :: pyInsert j v (b :: l)).getLastD 0 = (c :: b :: l).getLastD 0
              have hne : pyInsert j v (b :: l) ≠ [] := by
                intro hcon
                have := congrArg List.length hcon
                rw [pyInsert_length] at this
                simp at this
              rw [List.getLastD_cons, getLastD_irrel _ _ 0 hne, List.getLastD_cons,
                getLastD_irrel (b :: l) c 0 (by simp)]
              exact ih j (by simpa using h)

theorem pyInsert_perm (v : ℚ) : ∀ (idx : ℕ) (l : List ℚ), (pyInsert idx v l).Perm (v :: l) := by
  intro idx
  induction idx with
  | zero => intro l; exact List.Perm.refl _
  | succ j ih =>
      intro l
      cases l with
      | nil => exact List.Perm.refl _
      | cons c l =>
          show (c :: pyInsert j v l).Perm (v :: c :: l)
          exact ((ih l).cons c).trans (List.Perm.swap v c l)

theorem sin_ajuste_append_eq (xs hs : List ℚ) (p h : ℚ) (hmem : p ∉ xs) :
    agregar_bomba_sin_ajuste xs hs p h =
      agregar_bomba_sin_ajuste (xs ++ [p]) (hs ++ [npInterp p xs hs]) p h := by
  rw [sin_ajuste_of_not_mem xs hs p h hmem,
    sin_ajuste_of_mem (xs ++ [p]) (hs ++ [npInterp p xs hs]) p h (by simp)]

theorem sin_ajuste_minmax (xs hs : List ℚ) (p h : ℚ) (e f : ℚ × ℚ)
    (hlen : xs.length = hs.length)
    (hmem : p ∈ xs)
    (hee : e ∈ xs.zip hs) (hemin : ∀ a ∈ xs.zip hs, a ≠ e → e.1 < a.1)
    (hff : f ∈ xs.zip hs) (hfmax : ∀ a ∈ xs.zip hs, a ≠ f → a.1 < f.1) :
    (agregar_bomba_sin_ajuste xs hs p h).2.headI = e.2 ∧
    (agregar_bomba_sin_ajuste xs hs p h).2.getLastD 0 = f.2 + h ∧
    (agregar_bomba_sin_ajuste xs hs p h).1.headI = e.1 ∧
    (agregar_bomba_sin_ajuste xs hs p h).1.getLastD 0 = f.1 ∧
    (agregar_bomba_sin_ajuste xs hs p h).1.Perm (p :: xs) := by
  have hperm : (List.insertionSort pairLe (xs.zip hs)).Perm (xs.zip hs) :=
    List.perm_insertionSort pairLe _
  have hsne : List.insertionSort pairLe (xs.zip hs) ≠ [] := by
    intro hcon
    have hes : e ∈ List.insertionSort pairLe (xs.zip hs) := hperm.mem_iff.mpr hee
    rw [hcon] at hes
    simp at hes
  have hhead : (List.insertionSort pairLe (xs.zip hs)).headI = e :=
    insertionSort_headI_min _ e hee hemin
  have hlast : (List.insertionSort pairLe (xs.zip hs)).getLastD (0, 0) = f :=
    insertionSort_getLastD_max _ f hff hfmax
  have hfst : (sortStep xs hs).1 = (List.insertionSort pairLe (xs.zip hs)).map Prod.fst := rfl
  have hsnd : (sortStep xs hs).2 = (List.insertionSort pairLe (xs.zip hs)).map Prod.snd := rfl
  have hs1perm : (sortStep xs hs).1.Perm xs := by
    rw [hfst]
    have h1 : ((List.insertionSort pairLe (xs.zip hs)).map Prod.fst).Perm
        ((xs.zip hs).map Prod.fst) := hperm.map Prod.fst
    rwa [List.map_fst_zip xs hs (le_of_eq hlen)] at h1
  have hmem1 : p ∈ (sortStep xs hs).1 := hs1perm.mem_iff.mpr hmem
  have hidxlt : pyIndex p (sortStep xs hs).1 < (sortStep xs hs).1.length :=
    pyIndex_lt_length _ _ hmem1
  have hslen : (sortStep xs hs).1.length = (sortStep xs hs).2.length := by
    rw [hfst, hsnd]
    simp
  have hs1ne : (sortStep xs hs).1 ≠ [] := by
    rw [hfst]
    simpa using hsne
  have hs2ne : (sortStep xs hs).2 ≠ [] := by
    rw [hsnd]
    simpa using hsne
  rw [sin_ajuste_of_mem xs hs p h hmem]
  refine ⟨?_, ?_, ?_, ?_, ?_⟩
  · show (bumpFrom (pyIndex p (sortStep xs hs).1 + 1) h
      (pyInsert (pyIndex p (sortStep xs hs).1)
        (if 0 < pyIndex p (sortStep xs hs).1 then
          npInterp (p - epsShift) (sortStep xs hs).1 (sortStep xs hs).2
         else (sortStep xs hs).2.headI) (sortStep xs hs).2)).headI = e.2
    rw [bump_insert_headI ((sortStep xs hs).2) (pyIndex p (sortStep xs hs).1) _ h hs2ne
      (fun h0 => by rw [h0]; simp)]
    rw [hsnd, headI_map_snd _ hsne, hhead]
  · show (bumpFrom (pyIndex p (sortStep xs hs).1 + 1) h
      (pyInsert (pyIndex p (sortStep xs hs).1)
        (if 0 < pyIndex p (sortStep xs hs).1 then
          npInterp (p - epsShift) (sortStep xs hs).1 (sortStep xs hs).2
         else (sortStep xs hs).2.headI) (sortStep xs hs).2)).getLastD 0 = f.2 + h
    rw [bump_insert_getLastD h ((sortStep xs hs).2) (pyIndex p (sortStep xs hs).1) _
      (hslen ▸ hidxlt)]
    rw [hsnd, getLastD_map_snd _ hsne, hlast]
  · show (pyInsert (pyIndex p (sortStep xs hs).1) p (sortStep xs hs).1).headI = e.1
    rw [pyInsert_headI ((sortStep xs hs).1) (pyIndex p (sortStep xs hs).1) p hs1ne
      (fun h0 => (pyIndex_zero_headI p _ h0 hs1ne).symm)]
    rw [hfst, headI_map_fst _ hsne, hhead]
  · show (pyInsert (pyIndex p (sortStep xs hs).1) p (sortStep xs hs).1).getLastD 0 = f.1
    rw [pyInsert_getLastD p ((sortStep xs hs).1) (pyIndex p (sortStep xs hs).1) hidxlt]
    rw [hfst, getLastD_map_fst _ hsne, hlast]
  · show (pyInsert (pyIndex p (sortStep xs hs).1) p (sortStep xs hs).1).Perm (p :: xs)
    exact (pyInsert_perm p _ _).trans (hs1perm.cons p)

theorem anchor_counts (x0 xn : ℚ) (xmid : List ℚ)
    (hmid : ∀ a ∈ xmid, x0 < a ∧ a < xn) (hx0n : x0 < xn) :
    (x0 :: xmid ++ [xn]).count x0 = 1 ∧ (x0 :: xmid ++ [xn]).count xn = 1 := by
  have h0mid : xmid.count x0 = 0 :=
    List.count_eq_zero.mpr (fun hc => absurd (hmid x0 hc).1 (lt_irrefl x0))
  have hnmid : xmid.count xn = 0 :=
    List.count_eq_zero.mpr (fun hc => absurd (hmid xn hc).2 (lt_irrefl xn))
  constructor
  · simp [List.count_cons, List.count_append, h0mid, ne_of_lt hx0n, (ne_of_lt hx0n).symm]
  · simp [List.count_cons, List.count_append, hnmid, ne_of_lt hx0n, (ne_of_lt hx0n).symm]

theorem anchor_of_perm (l : List ℚ) (x0 xn : ℚ)
    (hhead : l.headI = x0) (hlast : l.getLastD 0 = xn)
    (hlen : 2 ≤ l.length) (hx0n : x0 < xn)
    (hclass : ∀ a ∈ l, a = x0 ∨ a = xn ∨ (x0 < a ∧ a < xn))
    (hcx0 : l.count x0 = 1) (hcxn : l.count xn = 1) :
    Anchor l := by
  have hdec := decompose_two l hlen
  rw [hhead, hlast] at hdec
  have h0nm : x0 ∉ l.tail.dropLast := by
    intro hmem0
    have h1 : 1 ≤ (l.tail.dropLast).count x0 := List.one_le_count_iff.mpr hmem0
    rw [hdec] at hcx0
    simp [List.count_cons, List.count_append, ne_of_lt hx0n, (ne_of_lt hx0n).symm] at hcx0
    omega
  have hnnm : xn ∉ l.tail.dropLast := by
    intro hmemn
    have h1 : 1 ≤ (l.tail.dropLast).count xn := List.one_le_count_iff.mpr hmemn
    rw [hdec] at hcxn
    simp [List.count_cons, List.count_append, ne_of_lt hx0n, (ne_of_lt hx0n).symm] at hcxn
    omega
  refine ⟨x0, l.tail.dropLast, xn, hdec, ?_, hx0n⟩
  intro a ha
  have hal : a ∈ l := by
    rw [hdec]
    exact List.mem_cons_of_mem x0 (List.mem_append_left _ ha)
  rcases hclass a hal with h1 | h1 | h1
  · exact absurd (h1 ▸ ha) h0nm
  · exact absurd (h1 ▸ ha) hnnm
  · exact h1

theorem chain'_anchor (l : List ℚ) (hlen : 2 ≤ l.length) (hch : List.Chain' (· < ·) l) :
    Anchor l := by
  have hpw : l.Pairwise (· < ·) := List.chain'_iff_pairwise.mp hch
  have hdec := decompose_two l hlen
  rw [hdec] at hpw
  refine ⟨l.headI, l.tail.dropLast, l.getLastD 0, hdec, ?_, ?_⟩
  · intro a ha
    obtain ⟨h1, h2⟩ := List.pairwise_cons.mp hpw
    have h3 := List.pairwise_append.mp h2
    exact ⟨h1 a (List.mem_append_left _ ha), h3.2.2 a ha (l.getLastD 0) (by simp)⟩
  · exact (List.pairwise_cons.mp hpw).1 (l.getLastD 0) (by simp)

theorem agregar_from_minmax (xs hs : List ℚ) (p h : ℚ) (h0 hn : ℚ)
    (hh : hs.headI = h0) (hl : hs.getLastD 0 = hn)
    (hsinh : (agregar_bomba_sin_ajuste xs hs p h).2.headI = h0)
    (hsinl : (agregar_bomba_sin_ajuste xs hs p h).2.getLastD 0 = hn + h)
    (hsne : (agregar_bomba_sin_ajuste xs hs p h).2 ≠ []) :
    (agregar_bomba xs hs p h).2.headI = hs.headI - h ∧
    (agregar_bomba xs hs p h).2.getLastD 0 = hs.getLastD 0 := by
  rw [agregar_bomba_eq_sin_ajuste]
  constructor
  · show ((agregar_bomba_sin_ajuste xs hs p h).2.map
        (fun v => v + (hs.getLastD 0 - (agregar_bomba_sin_ajuste xs hs p h).2.getLastD 0))).headI =
      hs.headI - h
    rw [headI_map_add _ _ hsne, hsinh, hsinl, hh, hl]
    ring
  · show ((agregar_bomba_sin_ajuste xs hs p h).2.map
        (fun v => v + (hs.getLastD 0 - (agregar_bomba_sin_ajuste xs hs p h).2.getLastD 0))).getLastD 0 =
      hs.getLastD 0
    rw [getLastD_map_add _ _ hsne, hsinl, hl]
    ring

theorem anchor_from_minmax (l xs : List ℚ) (x0 xn p : ℚ) (xmid : List ℚ)
    (hxs : xs = x0 :: xmid ++ [xn]) (hmid : ∀ a ∈ xmid, x0 < a ∧ a < xn) (hx0n : x0 < xn)
    (hhead : l.headI = x0) (hlast : l.getLastD 0 = xn)
    (hp1 : x0 < p) (hp2 : p < xn)
    (hperm : l.Perm (p :: xs) ∨ l.Perm (p :: (xs ++ [p]))) :
    Anchor l := by
  have h0mid : xmid.count x0 = 0 :=
    List.count_eq_zero.mpr (fun hc => absurd (hmid x0 hc).1 (lt_irrefl x0))
  have hnmid : xmid.count xn = 0 :=
    List.count_eq_zero.mpr (fun hc => absurd (hmid xn hc).2 (lt_irrefl xn))
  have hpne0 : p ≠ x0 := (ne_of_lt hp1).symm
  have hpnen : p ≠ xn := ne_of_lt hp2
  have hcx0 : l.count x0 = 1 := by
    rcases hperm with hp | hp
    · rw [hp.count_eq, hxs]
      simp [List.count_cons, List.count_append, h0mid, hpne0, hpne0.symm,
        ne_of_lt hx0n, (ne_of_lt hx0n).symm]
    · rw [hp.count_eq, hxs]
      simp [List.count_cons, List.count_append, h0mid, hpne0, hpne0.symm,
        ne_of_lt hx0n, (ne_of_lt hx0n).symm]
  have hcxn : l.count xn = 1 := by
    rcases hperm with hp | hp
    · rw [hp.count_eq, hxs]
      simp [List.count_cons, List.count_append, hnmid, hpnen, hpnen.symm,
        ne_of_lt hx0n, (ne_of_lt hx0n).symm]
    · rw [hp.count_eq, hxs]
      simp [List.count_cons, List.count_append, hnmid, hpnen, hpnen.symm,
        ne_of_lt hx0n, (ne_of_lt hx0n).symm]
  have hclass : ∀ a ∈ l, a = x0 ∨ a = xn ∨ (x0 < a ∧ a < xn) := by
    have hxsmem : ∀ a, a ∈ xs → a = x0 ∨ a = xn ∨ (x0 < a ∧ a < xn) := by
      intro a h1
      rw [hxs] at h1
      rcases List.mem_cons.mp h1 with h2 | h2
      · exact Or.inl h2
      · rcases List.mem_append.mp h2 with h3 | h3
        · exact Or.inr (Or.inr (hmid a h3))
        · exact Or.inr (Or.inl (by simpa using h3))
    intro a ha
    rcases hperm with hp | hp
    · have h1 := hp.mem_iff.mp ha
      rcases List.mem_cons.mp h1 with h2 | h2
      · exact Or.inr (Or.inr (h2 ▸ ⟨hp1, hp2⟩))
      · exact hxsmem a h2
    · have h1 := hp.mem_iff.mp ha
      rcases List.mem_cons.mp h1 with h2 | h2
      · exact Or.inr (Or.inr (h2 ▸ ⟨hp1, hp2⟩))
      · rcases List.mem_append.mp h2 with h3 | h3
        · exact hxsmem a h3
        · have h4 : a = p := by simpa using h3
          exact Or.inr (Or.inr (h4 ▸ ⟨hp1, hp2⟩))
  have hllen : 2 ≤ l.length := by
    rcases hperm with hp | hp
    · rw [hp.length_eq, List.length_cons, hxs]
      simp
    · rw [hp.length_eq, List.length_cons, hxs]
      simp
  exact anchor_of_perm l x0 xn hhead hlast hllen hx0n hclass hcx0 hcxn

theorem agregar_anchor_step (xs hs : List ℚ) (p h : ℚ)
    (han : Anchor xs) (hlen : xs.length = hs.length) :
    (agregar_bomba xs hs p h).2.headI = hs.headI - h ∧
    (agregar_bomba xs hs p h).2.getLastD 0 = hs.getLastD 0 ∧
    (agregar_bomba xs hs p h).1.length = (agregar_bomba xs hs p h).2.length ∧
    (xs.headI < p → p < xs.getLastD 0 →
      Anchor (agregar_bomba xs hs p h).1 ∧
      (agregar_bomba xs hs p h).1.headI = xs.headI ∧
      (agregar_bomba xs hs p h).1.getLastD 0 = xs.getLastD 0) := by
  obtain ⟨x0, xmid, xn, hxs, hmid, hx0n⟩ := han
  have hxs_head : xs.headI = x0 := by rw [hxs]; rfl
  have hxs_last : xs.getLastD 0 = xn := by
    rw [hxs]
    show ((x0 :: xmid) ++ [xn]).getLastD 0 = xn
    exact getLastD_concat _ _ _
  have hxs_ne : xs ≠ [] := by rw [hxs]; simp
  have hxs_len : xs.length = xmid.length + 2 := by
    rw [hxs]
    simp only [List.length_cons, List.length_append, List.length_singleton, List.length_nil]
  have hhs_len2 : 2 ≤ hs.length := by rw [← hlen, hxs_len]; omega
  have hhs_ne : hs ≠ [] := by
    intro hcon
    rw [hcon] at hhs_len2
    simp at hhs_len2
  obtain ⟨h0, hmidl, hn, hhs⟩ : ∃ a m b, hs = a :: m ++ [b] :=
    ⟨hs.headI, hs.tail.dropLast, hs.getLastD 0, decompose_two hs hhs_len2⟩
  have hhs_head : hs.headI = h0 := by rw [hhs]; rfl
  have hhs_last : hs.getLastD 0 = hn := by
    rw [hhs]
    show ((h0 :: hmidl) ++ [hn]).getLastD 0 = hn
    exact getLastD_concat _ _ _
  have hmlen : xmid.length = hmidl.length := by
    have h1 := hlen
    rw [hxs, hhs] at h1
    simp only [List.length_cons, List.length_append, List.length_singleton] at h1
    omega
  have hzip : xs.zip hs = (x0, h0) :: xmid.zip hmidl ++ [(xn, hn)] := by
    rw [hxs, hhs]
    show (x0, h0) :: (xmid ++ [xn]).zip (hmidl ++ [hn]) =
      (x0, h0) :: (xmid.zip hmidl ++ [(xn, hn)])
    congr 1
    exact List.zip_append hmlen
  have hzmin : ∀ a ∈ xs.zip hs, a = (x0, h0) ∨ x0 < a.1 := by
    intro a ha
    obtain ⟨a1, a2⟩ := a
    rw [hzip] at ha
    rcases List.mem_cons.mp ha with h1 | h1
    · exact Or.inl h1
    · rcases List.mem_append.mp h1 with h2 | h2
      · exact Or.inr (hmid a1 (List.of_mem_zip h2).1).1
      · have h3 : a1 = xn := by simpa using (congrArg Prod.fst (by simpa using h2 : ((a1, a2) : ℚ × ℚ) = (xn, hn)))
        exact Or.inr (h3 ▸ hx0n)
  have hzmax : ∀ a ∈ xs.zip hs, a = (xn, hn) ∨ a.1 < xn := by
    intro a ha
    obtain ⟨a1, a2⟩ := a
    rw [hzip] at ha
    rcases List.mem_cons.mp ha with h1 | h1
    · have h2 : a1 = x0 := congrArg Prod.fst h1
      exact Or.inr (h2 ▸ hx0n)
    · rcases List.mem_append.mp h1 with h2 | h2
      · exact Or.inr (hmid a1 (List.of_mem_zip h2).1).2
      · exact Or.inl (by simpa using h2)
  have hee0 : (x0, h0) ∈ xs.zip hs := by rw [hzip]; exact List.mem_cons_self _ _
  have hffn : (xn, hn) ∈ xs.zip hs := by rw [hzip]; simp
  have hemin0 : ∀ a ∈ xs.zip hs, a ≠ (x0, h0) → ((x0, h0) : ℚ × ℚ).1 < a.1 := by
    intro a ha hne
    rcases hzmin a ha with h1 | h1
    · exact absurd h1 hne
    · exact h1
  have hfmaxn : ∀ a ∈ xs.zip hs, a ≠ (xn, hn) → a.1 < ((xn, hn) : ℚ × ℚ).1 := by
    intro a ha hne
    rcases hzmax a ha with h1 | h1
    · exact absurd h1 hne
    · exact h1
  have hlen_sin := agregar_bomba_sin_ajuste_length xs hs p h hlen hhs_ne
  have hlen_ag : (agregar_bomba xs hs p h).1.length = (agregar_bomba xs hs p h).2.length := by
    rw [agregar_bomba_eq_sin_ajuste]
    show (agregar_bomba_sin_ajuste xs hs p h).1.length =
      ((agregar_bomba_sin_ajuste xs hs p h).2.map
        (fun v => v + (hs.getLastD 0 - (agregar_bomba_sin_ajuste xs hs p h).2.getLastD 0))).length
    rw [List.length_map]
    exact hlen_sin.1
  have hagr1 : (agregar_bomba xs hs p h).1 = (agregar_bomba_sin_ajuste xs hs p h).1 := by
    rw [agregar_bomba_eq_sin_ajuste]
  by_cases hpm : p ∈ xs
  · have M := sin_ajuste_minmax xs hs p h (x0, h0) (xn, hn) hlen hpm hee0 hemin0 hffn hfmaxn
    have hbase := agregar_from_minmax xs hs p h h0 hn hhs_head hhs_last M.1 M.2.1 hlen_sin.2
    refine ⟨hbase.1, hbase.2, hlen_ag, ?_⟩
    intro hp1 hp2
    rw [hxs_head] at hp1
    rw [hxs_last] at hp2
    refine ⟨?_, ?_, ?_⟩
    · rw [hagr1]
      exact anchor_from_minmax _ xs x0 xn p xmid hxs hmid hx0n M.2.2.1 M.2.2.2.1 hp1 hp2
        (Or.inl M.2.2.2.2)
    · rw [hagr1, M.2.2.1, hxs_head]
    · rw [hagr1, M.2.2.2.1, hxs_last]
  · have hsin_eq := sin_ajuste_append_eq xs hs p h hpm
    have hlen' : (xs ++ [p]).length = (hs ++ [npInterp p xs hs]).length := by simp [hlen]
    have hzip' : (xs ++ [p]).zip (hs ++ [npInterp p xs hs]) =
        xs.zip hs ++ [(p, npInterp p xs hs)] := List.zip_append hlen
    have hpmem' : p ∈ xs ++ [p] := by simp
    rcases lt_trichotomy p x0 with hplt | hpeq | hpgt
    · have hwh0 : npInterp p xs hs = h0 := by
        rw [hxs, hhs]
        exact npInterp_lt_head p x0 h0 _ _ hplt
      have hee : ((p, npInterp p xs hs) : ℚ × ℚ) ∈
          (xs ++ [p]).zip (hs ++ [npInterp p xs hs]) := by
        rw [hzip']
        simp
      have hff : ((xn, hn) : ℚ × ℚ) ∈ (xs ++ [p]).zip (hs ++ [npInterp p xs hs]) := by
        rw [hzip']
        exact List.mem_append_left _ hffn
      have hemin : ∀ a ∈ (xs ++ [p]).zip (hs ++ [npInterp p xs hs]),
          a ≠ (p, npInterp p xs hs) → ((p, npInterp p xs hs) : ℚ × ℚ).1 < a.1 := by
        intro a ha hne
        obtain ⟨a1, a2⟩ := a
        rw [hzip'] at ha
        rcases List.mem_append.mp ha with h1 | h1
        · have ha1 : a1 ∈ xs := (List.of_mem_zip h1).1
          rw [hxs] at ha1
          show p < a1
          rcases List.mem_cons.mp ha1 with h2 | h2
          · rw [h2]; exact hplt
          · rcases List.mem_append.mp h2 with h3 | h3
            · exact lt_trans hplt (hmid _ h3).1
            · rw [show a1 = xn by simpa using h3]
              exact lt_trans hplt hx0n
        · exact absurd (by simpa using h1) hne
      have hfmax : ∀ a ∈ (xs ++ [p]).zip (hs ++ [npInterp p xs hs]),
          a ≠ (xn, hn) → a.1 < ((xn, hn) : ℚ × ℚ).1 := by
        intro a ha hne
        rw [hzip'] at ha
        rcases List.mem_append.mp ha with h1 | h1
        · rcases hzmax a h1 with h2 | h2
          · exact absurd h2 hne
          · exact h2
        · have h4 : a = (p, npInterp p xs hs) := by simpa using h1
          rw [h4]
          show p < xn
          exact lt_trans hplt hx0n
      have M := sin_ajuste_minmax (xs ++ [p]) (hs ++ [npInterp p xs hs]) p h
        (p, npInterp p xs hs) (xn, hn) hlen' hpmem' hee hemin hff hfmax
      rw [← hsin_eq] at M
      have hbase := agregar_from_minmax xs hs p h h0 hn hhs_head hhs_last
        (by rw [M.1]; exact hwh0) M.2.1 hlen_sin.2
      refine ⟨hbase.1, hbase.2, hlen_ag, ?_⟩
      intro hp1 _
      rw [hxs_head] at hp1
      exact absurd hp1 (not_lt.mpr (le_of_lt hplt))
    · exact absurd (by rw [hpeq, hxs]; exact List.mem_cons_self _ _ : p ∈ xs) hpm
    · rcases lt_trichotomy p xn with hpltn | hpeqn | hpgtn
      · have hee : ((x0, h0) : ℚ × ℚ) ∈ (xs ++ [p]).zip (hs ++ [npInterp p xs hs]) := by
          rw [hzip']
          exact List.mem_append_left _ hee0
        have hff : ((xn, hn) : ℚ × ℚ) ∈ (xs ++ [p]).zip (hs ++ [npInterp p xs hs]) := by
          rw [hzip']
          exact List.mem_append_left _ hffn
        have hemin : ∀ a ∈ (xs ++ [p]).zip (hs ++ [npInterp p xs hs]),
            a ≠ (x0, h0) → ((x0, h0) : ℚ × ℚ).1 < a.1 := by
          intro a ha hne
          rw [hzip'] at ha
          rcases List.mem_append.mp ha with h1 | h1
          · rcases hzmin a h1 with h2 | h2
            · exact absurd h2 hne
            · exact h2
          · have h4 : a = (p, npInterp p xs hs) := by simpa using h1
            rw [h4]
            show x0 < p
            exact hpgt
        have hfmax : ∀ a ∈ (xs ++ [p]).zip (hs ++ [npInterp p xs hs]),
            a ≠ (xn, hn) → a.1 < ((xn, hn) : ℚ × ℚ).1 := by
          intro a ha hne
          rw [hzip'] at ha
          rcases List.mem_append.mp ha with h1 | h1
          · rcases hzmax a h1 with h2 | h2
            · exact absurd h2 hne
            · exact h2
          · have h4 : a = (p, npInterp p xs hs) := by simpa using h1
            rw [h4]
            show p < xn
            exact hpltn
        have M := sin_ajuste_minmax (xs ++ [p]) (hs ++ [npInterp p xs hs]) p h
          (x0, h0) (xn, hn) hlen' hpmem' hee hemin hff hfmax
        rw [← hsin_eq] at M
        have hbase := agregar_from_minmax xs hs p h h0 hn hhs_head hhs_last M.1 M.2.1 hlen_sin.2
        refine ⟨hbase.1, hbase.2, hlen_ag, ?_⟩
        intro hp1 hp2
        rw [hxs_head] at hp1
        rw [hxs_last] at hp2
        refine ⟨?_, ?_, ?_⟩
        · rw [hagr1]
          exact anchor_from_minmax _ xs x0 xn p xmid hxs hmid hx0n M.2.2.1 M.2.2.2.1 hp1 hp2
            (Or.inr M.2.2.2.2)
        · rw [hagr1, M.2.2.1, hxs_head]
        · rw [hagr1, M.2.2.2.1, hxs_last]
      · exact absurd (by rw [hpeqn, hxs]; simp : p ∈ xs) hpm
      · have hall : ∀ a ∈ xs, a < p := by
          intro a ha
          rw [hxs] at ha
          rcases List.mem_cons.mp ha with h2 | h2
          · rw [h2]; exact lt_trans hx0n hpgtn
          · rcases List.mem_append.mp h2 with h3 | h3
            · exact lt_trans (hmid a h3).2 hpgtn
            · rw [show a = xn by simpa using h3]
              exact hpgtn
        have hwhn : npInterp p xs hs = hn := by
          rw [npInterp_gt_all p xs hs hlen hxs_ne hall, hhs_last]
        have hee : ((x0, h0) : ℚ × ℚ) ∈ (xs ++ [p]).zip (hs ++ [npInterp p xs hs]) := by
          rw [hzip']
          exact List.mem_append_left _ hee0
        have hff : ((p, npInterp p xs hs) : ℚ × ℚ) ∈
            (xs ++ [p]).zip (hs ++ [npInterp p xs hs]) := by
          rw [hzip']
          simp
        have hemin : ∀ a ∈ (xs ++ [p]).zip (hs ++ [npInterp p xs hs]),
            a ≠ (x0, h0) → ((x0, h0) : ℚ × ℚ).1 < a.1 := by
          intro a ha hne
          rw [hzip'] at ha
          rcases List.mem_append.mp ha with h1 | h1
          · rcases hzmin a h1 with h2 | h2
            · exact absurd h2 hne
            · exact h2
          · have h4 : a = (p, npInterp p xs hs) := by simpa using h1
            rw [h4]
            show x0 < p
            exact lt_trans hx0n hpgtn
        have hfmax : ∀ a ∈ (xs ++ [p]).zip (hs ++ [npInterp p xs hs]),
            a ≠ (p, npInterp p xs hs) → a.1 < ((p, npInterp p xs hs) : ℚ × ℚ).1 := by
          intro a ha hne
          rw [hzip'] at ha
          rcases List.mem_append.mp ha with h1 | h1
          · show a.1 < p
            rcases hzmax a h1 with h2 | h2
            · rw [h2]; exact hpgtn
            · exact lt_trans h2 hpgtn
          · exact absurd (by simpa using h1) hne
        have M := sin_ajuste_minmax (xs ++ [p]) (hs ++ [npInterp p xs hs]) p h
          (x0, h0) (p, npInterp p xs hs) hlen' hpmem' hee hemin hff hfmax
        rw [← hsin_eq] at M
        have hbase := agregar_from_minmax xs hs p h h0 hn hhs_head hhs_last M.1
          (by rw [M.2.1]; show npInterp p xs hs + h = hn + h; rw [hwhn]) hlen_sin.2
        refine ⟨hbase.1, hbase.2, hlen_ag, ?_⟩
        intro _ hp2
        rw [hxs_last] at hp2
        exact absurd hp2 (not_lt.mpr (le_of_lt hpgtn))

theorem foldl_agregar_anchor (bs : List Bomba) : ∀ acc : List ℚ × List ℚ,
    Anchor acc.1 → acc.1.length = acc.2.length →
    (∀ b ∈ bs, acc.1.headI < b.x ∧ b.x < acc.1.getLastD 0) →
    Anchor (bs.foldl (fun a b => agregar_bomba a.1 a.2 b.x (b.head.getD 0)) acc).1 ∧
    (bs.foldl (fun a b => agregar_bomba a.1 a.2 b.x (b.head.getD 0)) acc).1.length =
      (bs.foldl (fun a b => agregar_bomba a.1 a.2 b.x (b.head.getD 0)) acc).2.length ∧
    (bs.foldl (fun a b => agregar_bomba a.1 a.2 b.x (b.head.getD 0)) acc).1.headI =
      acc.1.headI ∧
    (bs.foldl (fun a b => agregar_bomba a.1 a.2 b.x (b.head.getD 0)) acc).1.getLastD 0 =
      acc.1.getLastD 0 := by
  induction bs with
  | nil =>
      intro acc h1 h2 _
      exact ⟨h1, h2, rfl, rfl⟩
  | cons b bs ih =>
      intro acc h1 h2 h3
      have hb := h3 b (by simp)
      have hstep := agregar_anchor_step acc.1 acc.2 b.x (b.head.getD 0) h1 h2
      have hint := hstep.2.2.2 hb.1 hb.2
      have ih2 := ih (agregar_bomba acc.1 acc.2 b.x (b.head.getD 0)) hint.1 hstep.2.2.1
        (fun b2 hb2 => by
          rw [hint.2.1, hint.2.2]
          exact h3 b2 (List.mem_cons_of_mem b hb2))
      simp only [List.foldl_cons]
      exact ⟨ih2.1, ih2.2.1, by rw [ih2.2.2.1, hint.2.1], by rw [ih2.2.2.2, hint.2.2]⟩

/-- C2 (amended): for a strictly increasing terrain of length at least 2,
positive fluid and pipe parameters, a pump list whose single unknown-head
pump is u and whose known-head pumps all sit strictly inside the terrain
span, the boundary-constrained generator returns a profile whose first head
equals initialHead plus the first elevation exactly (hence within 1e-9), and
a pump list carrying the known pumps' heads unchanged followed by the
computed head of the previously unknown pump. (Without the interiority
restriction on the known pumps the first-head closure fails, see the
counterexample.) -/
theorem generar_con_bomba_desconocida_spec (log10 sqrtQ : ℚ → ℚ) (x z : List ℚ)
    (densidad viscosidad velocidad diametro rugosidad presion_inicial_m presion_final_m : ℚ)
    (bombas : List Bomba) (u : Bomba)
    (hx : 2 ≤ x.length) (hxz : x.length = z.length)
    (hchain : List.Chain' (· < ·) x)
    (hden : 0 < densidad) (hvis : 0 < viscosidad) (hvel : 0 < velocidad) (hdia : 0 < diametro)
    (hunknown : bombas.filter (fun b => b.head.isNone) = [u])
    (hknown : ∀ b ∈ bombas, b.head.isSome = true → x.headI < b.x ∧ b.x < x.getLastD 0) :
    (generar_perfil_presion_con_bomba_desconocida log10 sqrtQ x z densidad viscosidad velocidad
        diametro rugosidad presion_inicial_m presion_final_m bombas).2.1.headI =
      presion_inicial_m + z.headI ∧
    ∃ hu : ℚ,
      (generar_perfil_presion_con_bomba_desconocida log10 sqrtQ x z densidad viscosidad velocidad
          diametro rugosidad presion_inicial_m presion_final_m bombas).2.2 =
        (bombas.filter (fun b => b.head.isSome)).map (fun b => (b.x, b.head.getD 0)) ++
          [(u.x, hu)] := by
  unfold generar_perfil_presion_con_bomba_desconocida
  simp only
  set f := friccion log10 sqrtQ (densidad * velocidad * diametro / viscosidad) diametro rugosidad
  set h_list := (acumula_reversa sqrtQ f diametro velocidad x.reverse.headI z.reverse.headI
      (presion_final_m + z.reverse.headI) (x.reverse.tail.zip z.reverse.tail)).reverse
  set conocidas := bombas.filter (fun b => b.head.isSome)
  rw [hunknown]
  simp only
  have hAnchor : Anchor x := chain'_anchor x hx hchain
  have hlistlen : x.length = h_list.length := by
    simp only [h_list]
    rw [List.length_reverse, acumula_reversa_length]
    rw [List.length_zip, List.length_tail, List.length_tail,
      List.length_reverse, List.length_reverse, ← hxz]
    omega
  have hint : ∀ b ∈ conocidas, ((x, h_list) : List ℚ × List ℚ).1.headI < b.x ∧
      b.x < ((x, h_list) : List ℚ × List ℚ).1.getLastD 0 := by
    intro b hb
    simp only [conocidas] at hb
    have h1 := List.mem_filter.mp hb
    exact hknown b h1.1 (by simpa using h1.2)
  have hfold := foldl_agregar_anchor conocidas (x, h_list) hAnchor hlistlen hint
  have hstep := agregar_anchor_step
    (conocidas.foldl (fun acc b => agregar_bomba acc.1 acc.2 b.x (b.head.getD 0)) (x, h_list)).1
    (conocidas.foldl (fun acc b => agregar_bomba acc.1 acc.2 b.x (b.head.getD 0)) (x, h_list)).2
    u.x
    ((conocidas.foldl (fun acc b => agregar_bomba acc.1 acc.2 b.x (b.head.getD 0))
        (x, h_list)).2.headI - (presion_inicial_m + z.headI))
    hfold.1 hfold.2.1
  constructor
  · rw [hstep.1]
    ring
  · exact ⟨(conocidas.foldl (fun acc b => agregar_bomba acc.1 acc.2 b.x (b.head.getD 0))
      (x, h_list)).2.headI - (presion_inicial_m + z.headI), rfl⟩

/-- Witness for C2 at a concrete two-point terrain with one interior known
pump and one unknown pump. -/
theorem generar_con_bomba_desconocida_spec_witness :
    (generar_perfil_presion_con_bomba_desconocida (fun _ => 0) (fun _ => 0) [0, 2] [0, 0]
        1 1 1 1 0 7 10 [⟨1, some 5⟩, ⟨3 / 2, none⟩]).2.1.headI =
      7 + ([0, 0] : List ℚ).headI ∧
    ∃ hu : ℚ,
      (generar_perfil_presion_con_bomba_desconocida (fun _ => 0) (fun _ => 0) [0, 2] [0, 0]
          1 1 1 1 0 7 10 [⟨1, some 5⟩, ⟨3 / 2, none⟩]).2.2 =
        (([⟨1, some 5⟩, ⟨3 / 2, none⟩] : List Bomba).filter
            (fun b => b.head.isSome)).map (fun b => (b.x, b.head.getD 0)) ++
          [((⟨3 / 2, none⟩ : Bomba).x, hu)] :=
  generar_con_bomba_desconocida_spec (fun _ => 0) (fun _ => 0) [0, 2] [0, 0] 1 1 1 1 0 7 10
    [⟨1, some 5⟩, ⟨3 / 2, none⟩] ⟨3 / 2, none⟩ (by decide) (by decide)
    (List.chain'_cons.mpr ⟨by norm_num, List.chain'_singleton 2⟩)
    (by norm_num) (by norm_num) (by norm_num) (by norm_num) (by decide) (by decide)

/-- C2 counterexample: with a known pump of head -5 sitting at the terrain's
first position (not strictly interior), the generated profile's first head
is 2, not the requested 7 + 0, missing the claimed 1e-9 closure by 5. -/
theorem generar_con_bomba_desconocida_counterexample :
    (generar_perfil_presion_con_bomba_desconocida (fun _ => 0) (fun _ => 0) [0, 1, 2] [0, 0, 0]
        1 1 1 1 0 7 10 [⟨0, some (-5)⟩, ⟨1, none⟩]).2.1.headI = 2 ∧
    ([⟨0, some (-5)⟩, ⟨1, none⟩] : List Bomba).filter (fun b => b.head.isNone) = [⟨1, none⟩] ∧
    ¬ |(2 : ℚ) - (7 + ([0, 0, 0] : List ℚ).headI)| ≤ 1 / 1000000000 := by
  refine ⟨by decide, by decide, ?_⟩
  show ¬ |(2 : ℚ) - (7 + 0)| ≤ 1 / 1000000000
  rw [show (2 : ℚ) - (7 + 0) = -5 by norm_num, abs_neg,
    abs_of_pos (by norm_num : (0 : ℚ) < 5)]
  norm_num

end Fluido
